import Mathlib

/-!
Shallow embedding of the core logic of the HtmlCompare repository
(`src/core_logic.py`, class `HTMLComparator`), together with theorems
settling the frozen claims about its specification.

Modelling conventions:
* Python strings are `List Char` (`Str`); Python's `\s` whitespace class is
  modelled by `isWS`, covering the whitespace characters that occur in the
  source's data (space, tab, newline, carriage return, vertical tab, form
  feed, and the no-break space U+00A0, which Python's Unicode `\s` and
  `str.strip()` both treat as whitespace).
* `difflib.SequenceMatcher` (standard library, `junk=None`) is embedded by
  `findLongestMatch` / `getMatchingBlocks` / `getOpcodes` / `seqRatio`
  following its documented contract and the reference implementation: the
  longest matching block, ties broken by the earliest start in `a` and then
  the earliest start in `b`; recursive Ratcliff/Obershelp decomposition;
  adjacent blocks merged; a terminating sentinel block `(len a, len b, 0)`;
  `ratio = 2*M/(len a + len b)` and `1.0` for two empty sequences.  The
  default `autojunk` heuristic is modelled: when the second sequence has at
  least 200 elements, its elements occurring more than `len(b)//100 + 1`
  times are "popular" (`popularPred`) and excluded from the runs the main
  scan of `find_longest_match` can find (`cleanRunLen`), while the
  junk-extension passes (`extendMatch`) — whose junk set is empty for
  `junk=None`, popular elements not being junk — still extend the best match
  through any equal elements on either side.
* BeautifulSoup trees are the inductive `Node`; `find_all(text=True)` is the
  pre-order `leaves` traversal, which records each text node's position
  (`path`), its parent tag and position, and its grandparent tag and
  position, since the source only inspects `element.parent` and
  `element.parent.parent`.  Node identity (`==` on BeautifulSoup nodes) is
  modelled by equality of positions in the tree.
* Python floats are modelled by `ℚ`; all scores in the source are built from
  `difflib` ratios and the literal weights 0.5, 0.3, 0.4, 0.2, 0.8.
* Mutation (`replace_with`) is modelled by the pure `replaceAt`, and the
  locator returns the (possibly) rewritten tree in its result.
-/

namespace HtmlCompare

/-- Python strings, modelled as lists of characters. -/
abbrev Str := List Char

/-- Coerce a Lean string literal to the model's string type. -/
def str (s : String) : Str := s.data

/-- Whitespace characters (Python `\s` / `str.strip()`) occurring in the model. -/
def isWS (c : Char) : Bool :=
  c = ' ' || c = '\t' || c = '\n' || c = '\r' || c = '\x0b' || c = '\x0c' || c = ' '

/-- `s.replace(' ', ' ')`. -/
def replaceNBSP (s : Str) : Str := s.map fun c => if c = ' ' then ' ' else c

/-- Worker for `collapseWS`; the flag records whether the previous character
was part of a whitespace run that has already been replaced. -/
def collapseAux : Bool → Str → Str
  | _, [] => []
  | prev, c :: cs =>
    if isWS c then
      if prev then collapseAux true cs else ' ' :: collapseAux true cs
    else c :: collapseAux false cs

/-- `re.sub(r'\s+', ' ', s)`: every maximal whitespace run becomes one space. -/
def collapseWS (s : Str) : Str := collapseAux false s

/-- Python `s.strip()`: drop leading and trailing whitespace. -/
def pyStrip (s : Str) : Str := ((s.dropWhile isWS).reverse.dropWhile isWS).reverse

/-- Worker for `splitWs`; `cur` holds the current word, reversed. -/
def splitWsAux (cur : Str) : Str → List Str
  | [] => if cur = [] then [] else [cur.reverse]
  | c :: cs =>
    if isWS c then
      if cur = [] then splitWsAux [] cs else cur.reverse :: splitWsAux [] cs
    else splitWsAux (c :: cur) cs

/-- Python `s.split()`: split on whitespace runs, discarding empty pieces. -/
def splitWs (s : Str) : List Str := splitWsAux [] s

/-- Python `" ".join(ws)`. -/
def joinWS : List Str → Str
  | [] => []
  | [w] => w
  | w :: ws => w ++ ' ' :: joinWS ws

/-- Python slice `l[m:n]` for natural indices (clamping like Python). -/
def pySlice (l : List α) (m n : Nat) : List α := (l.drop m).take (n - m)

/-- Does `needle` occur at the very start of `hay`? -/
def startsWithL [DecidableEq α] : List α → List α → Bool
  | [], _ => true
  | _ :: _, [] => false
  | x :: xs, y :: ys => x = y && startsWithL xs ys

/-- Python `needle in hay` (contiguous subsequence test). -/
def containsSub [DecidableEq α] (needle : List α) : List α → Bool
  | [] => needle.isEmpty
  | y :: ys => startsWithL needle (y :: ys) || containsSub needle ys

/-! ### difflib.SequenceMatcher (embedded from its documented contract) -/

/-- Length of the longest common prefix of two lists. -/
def commonPfxLen [DecidableEq α] : List α → List α → Nat
  | x :: xs, y :: ys => if x = y then commonPfxLen xs ys + 1 else 0
  | _, _ => 0

/-- All index pairs `(i, j)` with `i < la`, `j < lb`, in the loop order of
`find_longest_match` (`i` ascending, then `j` ascending). -/
def indexPairs (la lb : Nat) : List (Nat × Nat) :=
  (List.range la).flatMap fun i => (List.range lb).map fun j => (i, j)

/-- The `autojunk` heuristic of `SequenceMatcher.__chain_b`: once the second
sequence has at least 200 elements, every element occurring in it more than
`len(b) // 100 + 1` times is "popular" and is removed from `b2j`, so no run
found by the main scan of `find_longest_match` can cover it. -/
def popularPred [DecidableEq α] (b : List α) (x : α) : Bool :=
  decide (200 ≤ b.length) && decide (b.length / 100 + 1 < b.count x)

/-- Length of the run of pairwise-equal heads of the two lists containing no
popular element of the second list: exactly the runs the `j2len` dictionary
of `find_longest_match` can accumulate, popular elements being absent from
`b2j`. -/
def cleanRunLen [DecidableEq α] (pop : α → Bool) : List α → List α → Nat
  | x :: xs, y :: ys =>
    if x = y ∧ pop y = false then cleanRunLen pop xs ys + 1 else 0
  | _, _ => 0

/-- One step of the longest-match scan: a strictly longer match replaces the
current best, so the first pair reaching the maximal length wins — the
documented tie-break (earliest in `a`, then earliest in `b`). -/
def flmStep [DecidableEq α] (pop : α → Bool) (a b : List α)
    (acc : Nat × Nat × Nat) (ij : Nat × Nat) : Nat × Nat × Nat :=
  let k := cleanRunLen pop (a.drop ij.1) (b.drop ij.2)
  if acc.2.2 < k then (ij.1, ij.2, k) else acc

/-- The main scan of `find_longest_match`: the best popularity-clean matching
run `(besti, bestj, bestsize)`, before the extension passes. -/
def flmRaw [DecidableEq α] (pop : α → Bool) (a b : List α) : Nat × Nat × Nat :=
  (indexPairs a.length b.length).foldl (flmStep pop a b) (0, 0, 0)

/-- How far a match at `(i, j)` extends backwards through equal elements:
the longest common suffix of the two prefixes in front of it. -/
def backLen [DecidableEq α] (a b : List α) (i j : Nat) : Nat :=
  commonPfxLen ((a.take i).reverse) ((b.take j).reverse)

/-- How far a match ending at `(i, j)` extends forwards through equal
elements. -/
def fwdLen [DecidableEq α] (a b : List α) (i j : Nat) : Nat :=
  commonPfxLen (a.drop i) (b.drop j)

/-- The extension passes of `find_longest_match`: with `isjunk = None` the
junk set `bjunk` is empty (popular elements are not junk), so the two
non-junk `while` loops extend the best match through every equal element on
either side and the two junk loops never fire. -/
def extendMatch [DecidableEq α] (a b : List α) (m : Nat × Nat × Nat) : Nat × Nat × Nat :=
  (m.1 - backLen a b m.1 m.2.1, m.2.1 - backLen a b m.1 m.2.1,
   m.2.2 + backLen a b m.1 m.2.1 + fwdLen a b (m.1 + m.2.2) (m.2.1 + m.2.2))

/-- `SequenceMatcher.find_longest_match` over whole sequences (recursive calls
work on slices; the popularity predicate always comes from the full second
sequence): the triple `(i, j, k)` of the longest matching block. -/
def findLongestMatch [DecidableEq α] (pop : α → Bool) (a b : List α) : Nat × Nat × Nat :=
  extendMatch a b (flmRaw pop a b)

/-- Ratcliff/Obershelp recursion of `get_matching_blocks`: find the longest
match, recurse on the pieces to its left and to its right.  The fuel is the
length of `a`; every recursive call strictly decreases it, so `a.length`
steps always suffice. -/
def matchingBlocksFuel [DecidableEq α] (pop : α → Bool) :
    Nat → List α → List α → List (Nat × Nat × Nat)
  | 0, _, _ => []
  | fuel + 1, a, b =>
    let m := findLongestMatch pop a b
    if m.2.2 = 0 then []
    else
      matchingBlocksFuel pop fuel (a.take m.1) (b.take m.2.1)
        ++ (m.1, m.2.1, m.2.2)
          :: (matchingBlocksFuel pop fuel (a.drop (m.1 + m.2.2)) (b.drop (m.2.1 + m.2.2))).map
              fun x => (x.1 + (m.1 + m.2.2), x.2.1 + (m.2.1 + m.2.2), x.2.2)

/-- The second pass of `get_matching_blocks`: collapse adjacent blocks. -/
def mergeBlocks : (Nat × Nat × Nat) → List (Nat × Nat × Nat) → List (Nat × Nat × Nat)
  | cur, [] => [cur]
  | cur, x :: xs =>
    if cur.1 + cur.2.2 = x.1 ∧ cur.2.1 + cur.2.2 = x.2.1 then
      mergeBlocks (cur.1, cur.2.1, cur.2.2 + x.2.2) xs
    else cur :: mergeBlocks x xs

/-- Merge a whole block list (empty list stays empty). -/
def mergeAll : List (Nat × Nat × Nat) → List (Nat × Nat × Nat)
  | [] => []
  | x :: xs => mergeBlocks x xs

/-- `SequenceMatcher.get_matching_blocks`: merged blocks plus the sentinel,
with the `autojunk` popularity computed once from the whole second
sequence. -/
def getMatchingBlocks [DecidableEq α] (a b : List α) : List (Nat × Nat × Nat) :=
  mergeAll (matchingBlocksFuel (popularPred b) a.length a b) ++ [(a.length, b.length, 0)]

/-- difflib opcode tags. -/
inductive DTag where
  | equal
  | delete
  | insert
  | replace
deriving DecidableEq, Repr

/-- One difflib opcode `(tag, i1, i2, j1, j2)`. -/
structure Op where
  tag : DTag
  i1 : Nat
  i2 : Nat
  j1 : Nat
  j2 : Nat
deriving DecidableEq, Repr

/-- `SequenceMatcher.get_opcodes`, walking the matching blocks with a cursor. -/
def opcodesFrom : Nat → Nat → List (Nat × Nat × Nat) → List Op
  | _, _, [] => []
  | i, j, (ai, bj, k) :: rest =>
    (if i < ai ∧ j < bj then [⟨.replace, i, ai, j, bj⟩]
     else if i < ai then [⟨.delete, i, ai, j, bj⟩]
     else if j < bj then [⟨.insert, i, ai, j, bj⟩]
     else [])
    ++ (if k ≠ 0 then [⟨.equal, ai, ai + k, bj, bj + k⟩] else [])
    ++ opcodesFrom (ai + k) (bj + k) rest

/-- `SequenceMatcher.get_opcodes` on two sequences. -/
def getOpcodes [DecidableEq α] (a b : List α) : List Op :=
  opcodesFrom 0 0 (getMatchingBlocks a b)

/-- Total size of the matching blocks (`M` in the ratio formula). -/
def sumMatchSizes (blocks : List (Nat × Nat × Nat)) : Nat :=
  (blocks.map fun x => x.2.2).sum

/-- `SequenceMatcher.ratio()`: `2*M/T`, and `1.0` when both are empty. -/
def seqRatio [DecidableEq α] (a b : List α) : ℚ :=
  if a.length + b.length = 0 then 1
  else 2 * (sumMatchSizes (getMatchingBlocks a b) : ℚ) / ((a.length : ℚ) + (b.length : ℚ))

/-! ### Text normalization and similarity (`core_logic.py`) -/

/-- The inner normalization of `_calculate_text_similarity`
(line 1004: `re.sub(r'\s+', ' ', text.strip())`). -/
def simNorm (s : Str) : Str := collapseWS (pyStrip s)

/-- `_calculate_text_similarity` (lines 998–1017): `0.0` when either raw text
is empty, else the difflib ratio of the two normalized texts. -/
def calcTextSimilarity (t1 t2 : Str) : ℚ :=
  if t1 = [] ∨ t2 = [] then 0 else seqRatio (simNorm t1) (simNorm t2)

/-- `ABSOLUTE_THRESHOLD = 0.2` (line 13). -/
def ABSOLUTE_THRESHOLD : ℚ := 1 / 5

/-! ### Trees (BeautifulSoup model) -/

/-- A markup tree: element nodes with a tag, an optional `class` attribute and
children, or text leaves. -/
inductive Node where
  | text (s : Str)
  | elem (tag : Str) (cls : Option Str) (children : List Node)

mutual

/-- `get_text()`: concatenation of all text content, in document order. -/
def getText : Node → Str
  | .text s => s
  | .elem _ _ cs => getTextList cs

/-- `get_text()` over a child list. -/
def getTextList : List Node → Str
  | [] => []
  | c :: cs => getText c ++ getTextList cs

end

/-- Fetch a node by its position (list of child indices). -/
def nodeAt (t : Node) : List Nat → Option Node
  | [] => some t
  | i :: rest =>
    match t with
    | .text _ => none
    | .elem _ _ cs =>
      match cs.get? i with
      | some c => nodeAt c rest
      | none => none

/-- `replace_with`: the node at the given position is replaced; any other
position is untouched.  Out-of-tree positions leave the tree unchanged. -/
def replaceAt (t : Node) : List Nat → Node → Node
  | [], repl => repl
  | i :: rest, repl =>
    match t with
    | .text s => .text s
    | .elem tag cls cs =>
      match cs.get? i with
      | some c => .elem tag cls (cs.set i (replaceAt c rest repl))
      | none => .elem tag cls cs

/-- `_extract_clean_text` (lines 39–44): `get_text()`, NBSP-replace, collapse
whitespace, strip. -/
def extractCleanText (t : Node) : Str := pyStrip (collapseWS (replaceNBSP (getText t)))

/-- A text leaf as seen by `soup.find_all(text=True)`: its position, raw
content, and the tag and position of its parent and grandparent (the source
only ever inspects `element.parent` and `element.parent.parent`). -/
structure Leaf where
  path : List Nat
  content : Str
  parentInfo : Option (Str × List Nat)
  gpInfo : Option (Str × List Nat)
deriving DecidableEq, Repr

mutual

/-- Pre-order collection of text leaves with ancestry, from one node. -/
def leavesN (par gp : Option (Str × List Nat)) : Node → List Nat → List Leaf
  | .text s, p => [⟨p, s, par, gp⟩]
  | .elem tag _ cs, p => leavesL (some (tag, p)) par cs p 0

/-- Pre-order collection of text leaves from a child list, `i` being the
index of the first child in `cs` within its parent. -/
def leavesL (par gp : Option (Str × List Nat)) : List Node → List Nat → Nat → List Leaf
  | [], _, _ => []
  | c :: cs, p, i => leavesN par gp c (p ++ [i]) ++ leavesL par gp cs p (i + 1)

end

/-- `soup.find_all(text=True)` in document order. -/
def leaves (root : Node) : List Leaf := leavesN none none root []

mutual

/-- `find_all(tag)` under one node: matching descendant elements with their
positions, pre-order, excluding the node itself. -/
def findTagN (tag : Str) : Node → List Nat → List (List Nat × Node)
  | .text _, _ => []
  | .elem _ _ cs, p => findTagL tag cs p 0

/-- `find_all(tag)` over a child list. -/
def findTagL (tag : Str) : List Node → List Nat → Nat → List (List Nat × Node)
  | [], _, _ => []
  | c :: cs, p, i =>
    (match c with
     | .elem ct _ _ => if ct = tag then [(p ++ [i], c)] else []
     | .text _ => [])
    ++ findTagN tag c (p ++ [i]) ++ findTagL tag cs p (i + 1)

end

/-! ### The contextual fuzzy locator (`_find_and_highlight_text_by_content`) -/

/-- Python truthiness of an optional string: `None` and `""` are falsy. -/
def otruthy : Option Str → Bool
  | some (_ :: _) => true
  | _ => false

/-- Keep an optional string only when it is truthy. -/
def truthyStr : Option Str → Option Str
  | some (c :: cs) => some (c :: cs)
  | _ => none

/-- Tags excluded by the scan (line 338). -/
def scriptStyle : List Str := [str "script", str "style"]

/-- `element.parent and element.parent.name not in ['script', 'style']`. -/
def parentOKForScan (lf : Leaf) : Bool :=
  match lf.parentInfo with
  | some (tag, _) => !(decide (tag ∈ scriptStyle))
  | none => false

/-- The per-leaf normalization of the scan (line 339:
`re.sub(r'\s+', ' ', element.replace(' ', ' ').strip())`). -/
def pyNormText (s : Str) : Str := collapseWS (pyStrip (replaceNBSP s))

/-- Normalized text content of a leaf, as compared against the target. -/
def textContentOf (lf : Leaf) : Str := pyNormText lf.content

/-- Row text of `_calculate_context_match_score_with_details`, table branch
(lines 798–809): all `td` texts of the row, each normalized, joined with
single trailing spaces, finally stripped. -/
def rowTextOfTr (trNode : Node) (gpPath : List Nat) : Str :=
  pyStrip (((findTagN (str "td") trNode gpPath).map
    fun td => pyNormText (getText td.2) ++ [' ']).flatten)

/-- The weighted context score of `_calculate_context_match_score_with_details`
(lines 845–872): 0.3 for each supplied context side, 0.4 for the combined
pattern when both are supplied, capped at 1. -/
def ctxScoreCore (rowText target : Str) (ctxB ctxA : Option Str) : ℚ :=
  let bscore := match truthyStr ctxB with
    | some cb => (3 : ℚ) / 10 * calcTextSimilarity rowText cb
    | none => 0
  let ascore := match truthyStr ctxA with
    | some ca => (3 : ℚ) / 10 * calcTextSimilarity rowText ca
    | none => 0
  let pscore := match truthyStr ctxB, truthyStr ctxA with
    | some cb, some ca =>
      (2 : ℚ) / 5 * calcTextSimilarity rowText (cb ++ ' ' :: target ++ ' ' :: ca)
    | _, _ => 0
  min (bscore + ascore + pscore) 1

/-- `_calculate_context_match_score_with_details` (lines 789–879): the row of
a `tr` grandparent when there is one, otherwise the leaf's own text; `0.0`
when the leaf has no parent. -/
def ctxMatchScore (root : Node) (lf : Leaf) (target : Str) (ctxB ctxA : Option Str) : ℚ :=
  match lf.parentInfo, lf.gpInfo with
  | some _, some (gpTag, gpPath) =>
    if gpTag = str "tr" then
      match nodeAt root gpPath with
      | some trNode => ctxScoreCore (rowTextOfTr trNode gpPath) target ctxB ctxA
      | none => 0
    else ctxScoreCore (pyStrip (collapseWS lf.content)) target ctxB ctxA
  | some _, none => ctxScoreCore (pyStrip (collapseWS lf.content)) target ctxB ctxA
  | none, _ => 0

/-- A scored candidate of the primary scan (one entry of `all_matches`). -/
structure Cand where
  leaf : Leaf
  text : Str
  basicSim : ℚ
  ctxScore : ℚ
  finalScore : ℚ
deriving DecidableEq, Repr

/-- The primary scan (lines 337–372): every leaf whose normalized text is
non-empty, whose parent is not `script`/`style` and which contains the target
becomes a candidate with `final = basic + context * 0.5`. -/
def primaryCands (root : Node) (target : Str) (ctxB ctxA : Option Str) : List Cand :=
  (leaves root).filterMap fun lf =>
    if parentOKForScan lf && !(textContentOf lf).isEmpty
        && containsSub target (textContentOf lf) then
      some ⟨lf, textContentOf lf, calcTextSimilarity (textContentOf lf) target,
        (if otruthy ctxB || otruthy ctxA then ctxMatchScore root lf target ctxB ctxA else 0),
        calcTextSimilarity (textContentOf lf) target
          + (if otruthy ctxB || otruthy ctxA then ctxMatchScore root lf target ctxB ctxA
             else 0) * (1 / 2)⟩
    else none

/-- One comparison step of the best-candidate selection: a strictly larger
final score replaces the current best. -/
def candStep (acc x : Cand) : Cand := if acc.finalScore < x.finalScore then x else acc

/-- `all_matches.sort(key=final_score, reverse=True); best = all_matches[0]`:
Python's sort is stable, so the head of the sorted list is the first
candidate, in scan order, attaining the maximal final score. -/
def pickBest : List Cand → Option Cand
  | [] => none
  | c :: cs => some (cs.foldl candStep c)

/-- The partial-overlap filter of the fallback (lines 397–404). -/
def overlapCond (target : Str) (lf : Leaf) : Bool :=
  !lf.content.isEmpty && parentOKForScan lf &&
    (let tc := textContentOf lf
     !tc.isEmpty && (containsSub tc target || containsSub target tc) &&
       decide (ABSOLUTE_THRESHOLD ≤ calcTextSimilarity tc target))

/-- Adjacency test of the grouping loop (lines 420–425): the previous element
is truthy and has a grandparent, and the current element's grandparent is the
same node. -/
def adjOK (prev cur : Leaf) : Bool :=
  !prev.content.isEmpty && prev.parentInfo.isSome && prev.gpInfo.isSome &&
    cur.parentInfo.isSome &&
    (match cur.gpInfo, prev.gpInfo with
     | some (_, p), some (_, q) => p == q
     | _, _ => false)

/-- One step of the grouping fold (lines 412–429). -/
def groupStep (acc : List (List Leaf) × List Leaf) (elem : Leaf) :
    List (List Leaf) × List Leaf :=
  match acc.2.getLast? with
  | none => (acc.1, [elem])
  | some prev => if adjOK prev elem then (acc.1, acc.2 ++ [elem]) else (acc.1 ++ [acc.2], [elem])

/-- Group the partial matches into runs of grandparent-sharing neighbours
(lines 408–431). -/
def groupAdjacent (ps : List Leaf) : List (List Leaf) :=
  let r := ps.foldl groupStep ([], [])
  if r.2.isEmpty then r.1 else r.1 ++ [r.2]

/-- `group_text` (lines 450–452): member texts stripped then collapsed,
joined with single spaces. -/
def groupJoinedText (g : List Leaf) : Str :=
  joinWS (g.map fun lf => collapseWS (pyStrip lf.content))

/-- Find the index of the `td` (by position) owning the given parent. -/
def tdIdxOf (tds : List (List Nat × Node)) (pInfo : Option (Str × List Nat)) : Option Nat :=
  match pInfo with
  | some (_, ppath) => tds.findIdx? fun td => td.1 == ppath
  | none => none

/-- `_extract_actual_context_from_group` (lines 1020–1073): the normalized
texts of the `td` immediately before the group's first member and immediately
after its last member, when the shared grandparent is a `tr`. -/
def extractActualContextFromGroup (root : Node) (g : List Leaf) : Option Str × Option Str :=
  match g, g.getLast? with
  | first :: _, some lastLf =>
    match first.parentInfo, first.gpInfo with
    | some _, some (gpTag, gpPath) =>
      if gpTag = str "tr" then
        match nodeAt root gpPath with
        | some trNode =>
          let tds := findTagN (str "td") trNode gpPath
          if tds.isEmpty then (none, none)
          else
            match tdIdxOf tds first.parentInfo, tdIdxOf tds lastLf.parentInfo with
            | some fi, some li =>
              let beforeCtx :=
                if 0 < fi then
                  match tds.get? (fi - 1) with
                  | some td =>
                    let t := pyNormText (getText td.2)
                    if t.isEmpty then none else some t
                  | none => none
                else none
              let afterCtx :=
                if li + 1 < tds.length then
                  match tds.get? (li + 1) with
                  | some td =>
                    let t := pyNormText (getText td.2)
                    if t.isEmpty then none else some t
                  | none => none
                else none
              (beforeCtx, afterCtx)
            | _, _ => (none, none)
        | none => (none, none)
      else (none, none)
    | _, _ => (none, none)
  | _, _ => (none, none)

/-- The fallback's per-group context score (lines 460–496): similarity of the
stored contexts against the actual neighbouring cells, averaging the strictly
positive sides with equal weight 0.5. -/
def groupCtxScore (root : Node) (ctxB ctxA : Option Str) (g : List Leaf) : ℚ :=
  let ac := extractActualContextFromGroup root g
  let bms := match truthyStr ctxB, ac.1 with
    | some cb, some ab => calcTextSimilarity ab cb
    | _, _ => 0
  let ams := match truthyStr ctxA, ac.2 with
    | some ca, some aa => calcTextSimilarity aa ca
    | _, _ => 0
  if 0 < bms ∧ 0 < ams then (bms * (1 / 2) + ams * (1 / 2)) / (1 / 2 + 1 / 2)
  else if 0 < bms then bms * (1 / 2) / (1 / 2)
  else if 0 < ams then ams * (1 / 2) / (1 / 2)
  else 0

/-- `base_sim` of a group (line 454). -/
def groupBaseSim (target : Str) (g : List Leaf) : ℚ :=
  calcTextSimilarity (groupJoinedText g) target

/-- The fallback's final group score (lines 526–531): once context is
supplied and yields a positive score, `0.2*base + 0.8*context`, else the base
similarity alone. -/
def groupFinalScore (root : Node) (target : Str) (ctxB ctxA : Option Str) (g : List Leaf) : ℚ :=
  if otruthy ctxB || otruthy ctxA then
    if 0 < groupCtxScore root ctxB ctxA g then
      groupBaseSim target g * (1 / 5) + groupCtxScore root ctxB ctxA g * (4 / 5)
    else groupBaseSim target g
  else groupBaseSim target g

/-- One step of the best-group tracking (line 533): strictly better scores
replace the current best. -/
def bestGroupStep (acc : Option (List Leaf) × ℚ) (gs : List Leaf × ℚ) :
    Option (List Leaf) × ℚ :=
  if acc.2 < gs.2 then (some gs.1, gs.2) else acc

/-- The best-group tracking fold (lines 436–536), starting from `(None, 0.0)`. -/
def pickBestGroup (scored : List (List Leaf × ℚ)) : Option (List Leaf) × ℚ :=
  scored.foldl bestGroupStep (none, 0)

/-- Decimal digits of a natural number. -/
def natStr (n : Nat) : Str := (Nat.repr n).data

/-- The CSS class of tooltip spans. -/
def highlightTooltipClass : Str := str "highlight-tooltip"

/-- The marker built by `_apply_highlighting` (lines 972–995): a span of the
highlight class wrapping the candidate's (normalized) text, with a tooltip
child span. -/
def primaryMarker (css tooltip wrapped : Str) : Node :=
  .elem (str "span") (some css)
    [.text wrapped, .elem (str "span") (some highlightTooltipClass) [.text tooltip]]

/-- Tooltip text of the `i`-th of `n` group members (line 627). -/
def seqTooltip (tooltip : Str) (i n : Nat) : Str :=
  tooltip ++ str " (시퀀스 " ++ natStr i ++ str "/" ++ natStr n ++ str ")"

/-- The marker substituted for group member `i` of `n` (lines 622–633): a
span wrapping the member's stripped raw text, with a sequence tooltip. -/
def groupMarker (css tooltip : Str) (i n : Nat) (content : Str) : Node :=
  .elem (str "span") (some css)
    [.text (pyStrip content),
     .elem (str "span") (some highlightTooltipClass) [.text (seqTooltip tooltip i n)]]

/-- Apply the group markers one member at a time (the loop of lines 614–633),
`i` being the zero-based index of the next member. -/
def applyGroupAux (css tooltip : Str) (n : Nat) : Node → Nat → List Leaf → Node
  | t, _, [] => t
  | t, i, lf :: rest =>
    applyGroupAux css tooltip n
      (replaceAt t lf.path (groupMarker css tooltip (i + 1) n lf.content)) (i + 1) rest

/-- Replace every member of an accepted group by its marker. -/
def applyGroupHighlight (root : Node) (g : List Leaf) (css tooltip : Str) : Node :=
  applyGroupAux css tooltip g.length root 0 g

/-- The diagnostic payload returned by the locator: the empty-target error
(line 326), the scan summary with `all_matches`/`matches_found` (lines
758–786, also reached after a below-threshold or non-applied group), the
fallback failure record (lines 550–556), or the fallback success record
(lines 660–701). -/
inductive DebugInfo where
  | emptyTarget
  | scanInfo (allCandidates : List Cand) (matchesFound : Nat)
  | seqFail (totalCandidates : Nat)
  | seqSuccess (totalCandidates : Nat) (bestScore : ℚ) (groupSize : Nat)
deriving DecidableEq, Repr

/-- Result of one locate attempt: the success flag, the (possibly rewritten)
tree, and the diagnostic payload. -/
structure LocateResult where
  success : Bool
  tree : Node
  debug : DebugInfo

/-- The sequence-group fallback (lines 393–703), entered only when the
primary scan produced no candidate. -/
def fallbackLocate (root : Node) (target css tooltip : Str) (applyH : Bool)
    (ctxB ctxA : Option Str) : LocateResult :=
  match pickBestGroup ((groupAdjacent ((leaves root).filter (overlapCond target))).map
      fun g => (g, groupFinalScore root target ctxB ctxA g)) with
  | (some g, s) =>
    if ABSOLUTE_THRESHOLD ≤ s then
      if applyH then
        ⟨true, applyGroupHighlight root g css tooltip,
          .seqSuccess ((leaves root).filter (overlapCond target)).length s g.length⟩
      else ⟨false, root, .scanInfo [] 0⟩
    else ⟨false, root, .scanInfo [] 0⟩
  | (none, _) => ⟨false, root, .seqFail ((leaves root).filter (overlapCond target)).length⟩

/-- `_find_and_highlight_text_by_content` (lines 323–787). -/
def findAndHighlightTextByContent (root : Node) (targetRaw css tooltip : Str)
    (applyH : Bool) (ctxB ctxA : Option Str) : LocateResult :=
  if (pyStrip targetRaw).isEmpty then ⟨false, root, .emptyTarget⟩
  else
    let target := pyStrip targetRaw
    let cands := primaryCands root target ctxB ctxA
    match pickBest cands with
    | some best =>
      if ABSOLUTE_THRESHOLD ≤ best.finalScore then
        if applyH then
          ⟨true, replaceAt root best.leaf.path (primaryMarker css tooltip best.text),
            .scanInfo cands 1⟩
        else ⟨true, root, .scanInfo cands 1⟩
      else ⟨false, root, .scanInfo cands 0⟩
    | none => fallbackLocate root target css tooltip applyH ctxB ctxA

/-! ### The word-diff pipeline (`_analyze_char_word_changes`) -/

/-- One emitted change record (a non-`equal` hunk, lines 69–81). -/
structure Change where
  status : DTag
  before : List Str
  after : List Str
  beforePos : Option (Nat × Nat)
  afterPos : Option (Nat × Nat)
  beforeCtxBefore : List Str
  beforeCtxAfter : List Str
  afterCtxBefore : List Str
  afterCtxAfter : List Str
deriving DecidableEq, Repr

/-- `_calculate_word_position` (lines 85–101).  The source also computes a
normalized copy of `full_text` that it never uses; the parameter is kept to
mirror the signature. -/
def calcWordPosition (fullText : Str) (words : List Str) (startIdx endIdx : Nat) :
    Option (Nat × Nat) :=
  if words.length ≤ startIdx ∨ words.length < endIdx then none
  else
    let beforeText := joinWS (words.take startIdx)
    let startPos := beforeText.length + (if beforeText = [] then 0 else 1)
    let targetText := joinWS (pySlice words startIdx endIdx)
    some (startPos, startPos + targetText.length)

/-- The change record built for one non-`equal` opcode (lines 60–81): the
word slices, the character spans, and the up-to-3-word contexts on each
side. -/
def changeOfOp (beforeText afterText : Str) (bw aw : List Str) (op : Op) : Change :=
  { status := op.tag
    before := pySlice bw op.i1 op.i2
    after := pySlice aw op.j1 op.j2
    beforePos := calcWordPosition beforeText bw op.i1 op.i2
    afterPos := calcWordPosition afterText aw op.j1 op.j2
    beforeCtxBefore := if 0 < op.i1 then pySlice bw (op.i1 - 3) op.i1 else []
    beforeCtxAfter := pySlice bw op.i2 (min bw.length (op.i2 + 3))
    afterCtxBefore := if 0 < op.j1 then pySlice aw (op.j1 - 3) op.j1 else []
    afterCtxAfter := pySlice aw op.j2 (min aw.length (op.j2 + 3)) }

/-- `_analyze_char_word_changes` (lines 47–82): extract and normalize both
texts, split into words, diff, and emit one change per non-`equal` opcode. -/
def analyzeCharWordChanges (beforeTree afterTree : Node) : List Change :=
  let beforeText := extractCleanText beforeTree
  let afterText := extractCleanText afterTree
  let bw := splitWs beforeText
  let aw := splitWs afterText
  (getOpcodes bw aw).filterMap fun op =>
    if op.tag = .equal then none
    else some (changeOfOp beforeText afterText bw aw op)

/-- `_extract_change_context` (lines 290–320): the stored before-side context
pair when both its lists are non-empty, else the after-side pair when both
its lists are non-empty, else no context. -/
def extractChangeContext (c : Change) : Option Str × Option Str :=
  if !c.beforeCtxBefore.isEmpty && !c.beforeCtxAfter.isEmpty then
    (some (joinWS c.beforeCtxBefore), some (joinWS c.beforeCtxAfter))
  else if !c.afterCtxBefore.isEmpty && !c.afterCtxAfter.isEmpty then
    (some (joinWS c.afterCtxBefore), some (joinWS c.afterCtxAfter))
  else (none, none)

/-! ### Concrete documents and records used to settle the claims -/

/-- A document with a single paragraph leaf `"a b"`. -/
def docAB : Node :=
  .elem (str "[document]") none [.elem (str "p") none [.text (str "a b")]]

/-- A table row with cells `"x a b y"`, `"a"`, `"b"`. -/
def docRow : Node :=
  .elem (str "[document]") none
    [.elem (str "table") none
      [.elem (str "tr") none
        [.elem (str "td") none [.text (str "x a b y")],
         .elem (str "td") none [.text (str "a")],
         .elem (str "td") none [.text (str "b")]]]]

/-- A document with a single paragraph leaf `"hello"`. -/
def docHello : Node :=
  .elem (str "[document]") none [.elem (str "p") none [.text (str "hello")]]

/-- A paragraph whose leaf carries leading, internal and trailing extra
whitespace. -/
def docMessy : Node :=
  .elem (str "[document]") none [.elem (str "p") none [.text (str " cat  dog ")]]

/-- A document with a single paragraph leaf `"a b c d e f"`. -/
def docLong : Node :=
  .elem (str "[document]") none [.elem (str "p") none [.text (str "a b c d e f")]]

/-- A document with a single paragraph leaf `"cat"`. -/
def docCat : Node :=
  .elem (str "[document]") none [.elem (str "p") none [.text (str "cat")]]

/-- The `"a"` cell leaf of `docRow`, as collected by `leaves`. -/
def rowLeafA : Leaf :=
  ⟨[0, 0, 1, 0], str "a", some (str "td", [0, 0, 1]), some (str "tr", [0, 0])⟩

/-- The `"b"` cell leaf of `docRow`, as collected by `leaves`. -/
def rowLeafB : Leaf :=
  ⟨[0, 0, 2, 0], str "b", some (str "td", [0, 0, 2]), some (str "tr", [0, 0])⟩

/-- The leaf of `docCat`, as collected by `leaves`. -/
def catLeaf : Leaf := ⟨[0, 0], str "cat", some (str "p", [0]), some (str "[document]", [])⟩

/-- The candidate built for `catLeaf` against the target `"cat"`. -/
def catCand : Cand := ⟨catLeaf, str "cat", 1, 0, 1⟩

/-- The leaf of `docLong`, as collected by `leaves`. -/
def longLeaf : Leaf :=
  ⟨[0, 0], str "a b c d e f", some (str "p", [0]), some (str "[document]", [])⟩

/-- The candidate built for `longLeaf` against the target `"a"` (similarity
`2/12 = 1/6`, below the `0.2` threshold). -/
def longCand : Cand := ⟨longLeaf, str "a b c d e f", 1 / 6, 0, 1 / 6⟩

/-- A change whose before-side context lists are both present. -/
def chgBefore : Change :=
  ⟨.replace, [str "x"], [str "y"], none, none, [str "p"], [str "q"], [str "r"], [str "s"]⟩

/-- A change whose before-side context is incomplete but whose after-side
context is complete. -/
def chgAfter : Change :=
  ⟨.replace, [str "x"], [str "y"], none, none, [], [str "q"], [str "r"], [str "s"]⟩

/-- A change with no usable stored context on either side. -/
def chgNone : Change :=
  ⟨.insert, [], [str "y"], none, none, [], [str "q"], [], [str "s"]⟩

/-! ### Bookkeeping predicates used by the theorems -/

/-- Well-formedness of a matching-block list relative to a cursor: blocks are
in order, never overlap, and stay within the sequence bounds. -/
def chainOK : Nat → Nat → Nat → Nat → List (Nat × Nat × Nat) → Prop
  | i, j, la, lb, [] => i ≤ la ∧ j ≤ lb
  | i, j, la, lb, (ai, bj, k) :: rest => i ≤ ai ∧ j ≤ bj ∧ chainOK (ai + k) (bj + k) la lb rest

/-- Where the cursor ends after walking a block list. -/
def endCursor : Nat → Nat → List (Nat × Nat × Nat) → Nat × Nat
  | i, j, [] => (i, j)
  | _, _, (ai, bj, k) :: rest => endCursor (ai + k) (bj + k) rest

/-- Two tree positions that are incomparable (neither is an ancestor of the
other): replacing at one cannot affect the node at the other. -/
def pathsIndep (p q : List Nat) : Prop :=
  ¬ startsWithL p q = true ∧ ¬ startsWithL q p = true

/-! ## Lemmas about the sequence matcher -/

theorem commonPfxLen_le_left [DecidableEq α] :
    ∀ xs ys : List α, commonPfxLen xs ys ≤ xs.length := by
  intro xs
  induction xs with
  | nil => intro ys; cases ys <;> simp [commonPfxLen]
  | cons x xs ih =>
    intro ys
    cases ys with
    | nil => simp [commonPfxLen]
    | cons y ys =>
      by_cases h : x = y <;> simp only [commonPfxLen, h, if_true, if_false, List.length_cons]
      · exact Nat.succ_le_succ (ih ys)
      · exact Nat.zero_le _

theorem commonPfxLen_le_right [DecidableEq α] :
    ∀ xs ys : List α, commonPfxLen xs ys ≤ ys.length := by
  intro xs
  induction xs with
  | nil => intro ys; cases ys <;> simp [commonPfxLen]
  | cons x xs ih =>
    intro ys
    cases ys with
    | nil => simp [commonPfxLen]
    | cons y ys =>
      by_cases h : x = y <;> simp only [commonPfxLen, h, if_true, if_false, List.length_cons]
      · exact Nat.succ_le_succ (ih ys)
      · exact Nat.zero_le _

theorem commonPfxLen_self [DecidableEq α] : ∀ n : List α, commonPfxLen n n = n.length := by
  intro n
  induction n with
  | nil => simp [commonPfxLen]
  | cons x xs ih => simp [commonPfxLen, ih]

theorem foldl_preserve {α β : Type _} {P : β → Prop} {f : β → α → β}
    (hstep : ∀ acc x, P acc → P (f acc x)) :
    ∀ (l : List α) (init : β), P init → P (l.foldl f init) := by
  intro l
  induction l with
  | nil => intro init h; exact h
  | cons x xs ih => intro init h; exact ih _ (hstep _ _ h)

theorem cleanRunLen_le_left [DecidableEq α] (pop : α → Bool) :
    ∀ xs ys : List α, cleanRunLen pop xs ys ≤ xs.length := by
  intro xs
  induction xs with
  | nil => intro ys; cases ys <;> simp [cleanRunLen]
  | cons x xs ih =>
    intro ys
    cases ys with
    | nil => simp [cleanRunLen]
    | cons y ys =>
      by_cases h : x = y ∧ pop y = false
      · simp only [cleanRunLen, if_pos h, List.length_cons]
        exact Nat.succ_le_succ (ih ys)
      · simp only [cleanRunLen, if_neg h]
        exact Nat.zero_le _

theorem cleanRunLen_le_right [DecidableEq α] (pop : α → Bool) :
    ∀ xs ys : List α, cleanRunLen pop xs ys ≤ ys.length := by
  intro xs
  induction xs with
  | nil => intro ys; cases ys <;> simp [cleanRunLen]
  | cons x xs ih =>
    intro ys
    cases ys with
    | nil => simp [cleanRunLen]
    | cons y ys =>
      by_cases h : x = y ∧ pop y = false
      · simp only [cleanRunLen, if_pos h, List.length_cons]
        exact Nat.succ_le_succ (ih ys)
      · simp only [cleanRunLen, if_neg h]
        exact Nat.zero_le _

theorem cleanRunLen_le_diag_right [DecidableEq α] (pop : α → Bool) :
    ∀ xs ys : List α, cleanRunLen pop xs ys ≤ cleanRunLen pop ys ys := by
  intro xs
  induction xs with
  | nil => intro ys; cases ys <;> simp [cleanRunLen]
  | cons x xs ih =>
    intro ys
    cases ys with
    | nil => simp [cleanRunLen]
    | cons y ys =>
      by_cases h : x = y ∧ pop y = false
      · have hy : y = y ∧ pop y = false := ⟨rfl, h.2⟩
        rw [show cleanRunLen pop (x :: xs) (y :: ys) = cleanRunLen pop xs ys + 1 from if_pos h,
          show cleanRunLen pop (y :: ys) (y :: ys) = cleanRunLen pop ys ys + 1 from if_pos hy]
        exact Nat.succ_le_succ (ih ys)
      · simp only [cleanRunLen, if_neg h]
        exact Nat.zero_le _

theorem cleanRunLen_le_diag_left [DecidableEq α] (pop : α → Bool) :
    ∀ xs ys : List α, cleanRunLen pop xs ys ≤ cleanRunLen pop xs xs := by
  intro xs
  induction xs with
  | nil => intro ys; cases ys <;> simp [cleanRunLen]
  | cons x xs ih =>
    intro ys
    cases ys with
    | nil => simp [cleanRunLen]
    | cons y ys =>
      by_cases h : x = y ∧ pop y = false
      · have hx : x = x ∧ pop x = false := ⟨rfl, by rw [h.1]; exact h.2⟩
        rw [show cleanRunLen pop (x :: xs) (y :: ys) = cleanRunLen pop xs ys + 1 from if_pos h,
          show cleanRunLen pop (x :: xs) (x :: xs) = cleanRunLen pop xs xs + 1 from if_pos hx]
        exact Nat.succ_le_succ (ih ys)
      · simp only [cleanRunLen, if_neg h]
        exact Nat.zero_le _

theorem indexPairs_mem {la lb : Nat} {p : Nat × Nat} :
    p ∈ indexPairs la lb ↔ p.1 < la ∧ p.2 < lb := by
  unfold indexPairs
  rw [List.mem_flatMap]
  constructor
  · rintro ⟨i, hi, hmem⟩
    rw [List.mem_map] at hmem
    obtain ⟨j, hj, rfl⟩ := hmem
    exact ⟨List.mem_range.mp hi, List.mem_range.mp hj⟩
  · rintro ⟨h1, h2⟩
    exact ⟨p.1, List.mem_range.mpr h1,
      List.mem_map.mpr ⟨p.2, List.mem_range.mpr h2, rfl⟩⟩

theorem pairwise_flatMap_of {α β : Type _} (R : β → β → Prop) (f : α → List β) :
    ∀ l : List α, l.Pairwise (fun a c => ∀ x ∈ f a, ∀ y ∈ f c, R x y) →
      (∀ a ∈ l, (f a).Pairwise R) → (l.flatMap f).Pairwise R := by
  intro l
  induction l with
  | nil => intro _ _; simp
  | cons a l ih =>
    intro hp hall
    rw [List.flatMap_cons]
    apply List.pairwise_append.mpr
    refine ⟨hall a (List.mem_cons_self _ _), ih (List.pairwise_cons.mp hp).2
      (fun x hx => hall x (List.mem_cons_of_mem _ hx)), ?_⟩
    intro x hx y hy
    rw [List.mem_flatMap] at hy
    obtain ⟨c, hc, hyc⟩ := hy
    exact (List.pairwise_cons.mp hp).1 c hc x hx y hyc

/-- The pair list of the main scan is sorted in the loop order: `i`
ascending, then `j` ascending. -/
theorem indexPairs_pairwise (la lb : Nat) :
    (indexPairs la lb).Pairwise fun p q : Nat × Nat =>
      p.1 < q.1 ∨ (p.1 = q.1 ∧ p.2 < q.2) := by
  unfold indexPairs
  apply pairwise_flatMap_of
  · refine (List.pairwise_lt_range la).imp ?_
    intro i1 i2 h12 x hx y hy
    rw [List.mem_map] at hx hy
    obtain ⟨j1, _, rfl⟩ := hx
    obtain ⟨j2, _, rfl⟩ := hy
    exact Or.inl h12
  · intro i _
    rw [List.pairwise_map]
    exact (List.pairwise_lt_range lb).imp fun hlt => Or.inr ⟨rfl, hlt⟩

/-- The strict-improvement fold keeps the first pair whose run length is
maximal: either nothing ever beat the initial best, or the result is the
first maximal pair, every earlier pair being strictly shorter and every
later one no longer. -/
theorem flmFold_spec [DecidableEq α] (pop : α → Bool) (a b : List α) :
    ∀ (l : List (Nat × Nat)) (acc : Nat × Nat × Nat),
      (l.foldl (flmStep pop a b) acc = acc
          ∧ ∀ q ∈ l, cleanRunLen pop (a.drop q.1) (b.drop q.2) ≤ acc.2.2)
      ∨ (∃ pre p post, l = pre ++ p :: post
          ∧ l.foldl (flmStep pop a b) acc
              = (p.1, p.2, cleanRunLen pop (a.drop p.1) (b.drop p.2))
          ∧ acc.2.2 < cleanRunLen pop (a.drop p.1) (b.drop p.2)
          ∧ (∀ q ∈ pre, cleanRunLen pop (a.drop q.1) (b.drop q.2)
              < cleanRunLen pop (a.drop p.1) (b.drop p.2))
          ∧ (∀ q ∈ post, cleanRunLen pop (a.drop q.1) (b.drop q.2)
              ≤ cleanRunLen pop (a.drop p.1) (b.drop p.2))) := by
  intro l
  induction l with
  | nil => intro acc; exact Or.inl ⟨rfl, by simp⟩
  | cons x xs ih =>
    intro acc
    rw [List.foldl_cons]
    by_cases hx : acc.2.2 < cleanRunLen pop (a.drop x.1) (b.drop x.2)
    · have hstep : flmStep pop a b acc x
          = (x.1, x.2, cleanRunLen pop (a.drop x.1) (b.drop x.2)) := by
        unfold flmStep
        rw [if_pos hx]
      rw [hstep]
      rcases ih (x.1, x.2, cleanRunLen pop (a.drop x.1) (b.drop x.2)) with
        ⟨heq, hall⟩ | ⟨pre, p, post, hsp, heq, hgt, hpre, hpost⟩
      · refine Or.inr ⟨[], x, xs, rfl, heq, hx, by simp, ?_⟩
        intro q hq
        simpa using hall q hq
      · have hgt' : cleanRunLen pop (a.drop x.1) (b.drop x.2)
            < cleanRunLen pop (a.drop p.1) (b.drop p.2) := by simpa using hgt
        refine Or.inr ⟨x :: pre, p, post,
          by rw [hsp]; exact (List.cons_append _ _ _).symm, heq, by omega, ?_, hpost⟩
        intro q hq
        rcases List.mem_cons.mp hq with rfl | hq'
        · exact hgt'
        · exact hpre q hq'
    · have hstep : flmStep pop a b acc x = acc := by
        unfold flmStep
        rw [if_neg hx]
      rw [hstep]
      rcases ih acc with ⟨heq, hall⟩ | ⟨pre, p, post, hsp, heq, hgt, hpre, hpost⟩
      · refine Or.inl ⟨heq, ?_⟩
        intro q hq
        rcases List.mem_cons.mp hq with rfl | hq'
        · omega
        · exact hall q hq'
      · refine Or.inr ⟨x :: pre, p, post,
          by rw [hsp]; exact (List.cons_append _ _ _).symm, heq, hgt, ?_, hpost⟩
        intro q hq
        rcases List.mem_cons.mp hq with rfl | hq'
        · omega
        · exact hpre q hq'

theorem flmRaw_bounds [DecidableEq α] (pop : α → Bool) (a b : List α) :
    (flmRaw pop a b).1 + (flmRaw pop a b).2.2 ≤ a.length
      ∧ (flmRaw pop a b).2.1 + (flmRaw pop a b).2.2 ≤ b.length := by
  unfold flmRaw
  refine @foldl_preserve _ _ (fun t : Nat × Nat × Nat =>
    t.1 + t.2.2 ≤ a.length ∧ t.2.1 + t.2.2 ≤ b.length) _ ?_ _ _
    ⟨Nat.zero_le _, Nat.zero_le _⟩
  intro acc ij hacc
  unfold flmStep
  by_cases h : acc.2.2 < cleanRunLen pop (a.drop ij.1) (b.drop ij.2)
  · simp only [h, if_true]
    have h1 := cleanRunLen_le_left pop (a.drop ij.1) (b.drop ij.2)
    have h2 := cleanRunLen_le_right pop (a.drop ij.1) (b.drop ij.2)
    rw [List.length_drop] at h1
    rw [List.length_drop] at h2
    constructor <;> omega
  · simpa [h] using hacc

theorem findLongestMatch_bounds [DecidableEq α] (pop : α → Bool) (a b : List α) :
    (findLongestMatch pop a b).1 + (findLongestMatch pop a b).2.2 ≤ a.length
      ∧ (findLongestMatch pop a b).2.1 + (findLongestMatch pop a b).2.2 ≤ b.length := by
  obtain ⟨h1, h2⟩ := flmRaw_bounds pop a b
  unfold findLongestMatch
  rcases hr : flmRaw pop a b with ⟨mi, mj, mk⟩
  rw [hr] at h1 h2
  dsimp only at h1 h2
  unfold extendMatch
  dsimp only
  have hd1 : backLen a b mi mj ≤ mi := by
    unfold backLen
    calc commonPfxLen ((a.take mi).reverse) ((b.take mj).reverse)
        ≤ ((a.take mi).reverse).length := commonPfxLen_le_left _ _
      _ ≤ mi := by rw [List.length_reverse, List.length_take]; omega
  have hd2 : backLen a b mi mj ≤ mj := by
    unfold backLen
    calc commonPfxLen ((a.take mi).reverse) ((b.take mj).reverse)
        ≤ ((b.take mj).reverse).length := commonPfxLen_le_right _ _
      _ ≤ mj := by rw [List.length_reverse, List.length_take]; omega
  have he1 : fwdLen a b (mi + mk) (mj + mk) ≤ a.length - (mi + mk) := by
    unfold fwdLen
    calc commonPfxLen (a.drop (mi + mk)) (b.drop (mj + mk))
        ≤ (a.drop (mi + mk)).length := commonPfxLen_le_left _ _
      _ = a.length - (mi + mk) := List.length_drop _ _
  have he2 : fwdLen a b (mi + mk) (mj + mk) ≤ b.length - (mj + mk) := by
    unfold fwdLen
    calc commonPfxLen (a.drop (mi + mk)) (b.drop (mj + mk))
        ≤ (b.drop (mj + mk)).length := commonPfxLen_le_right _ _
      _ = b.length - (mj + mk) := List.length_drop _ _
  constructor <;> omega

/-- On two equal sequences the extension passes always recover the full
match, whatever the popularity predicate left for the main scan: the raw
best is diagonal (a clean run at `(i, j)` is no longer than the diagonal
clean run at `min i j`, which the scan visits first), and extending a
diagonal run of an identical pair of sequences reaches both ends. -/
theorem findLongestMatch_self [DecidableEq α] (pop : α → Bool) (n : List α) :
    findLongestMatch pop n n = (0, 0, n.length) := by
  unfold findLongestMatch
  rcases flmFold_spec pop n n (indexPairs n.length n.length) (0, 0, 0) with
    ⟨heq, _⟩ | ⟨pre, p, post, hsp, heq, hgt, hpre, hpost⟩
  · show extendMatch n n (flmRaw pop n n) = _
    unfold flmRaw
    rw [heq]
    unfold extendMatch backLen fwdLen
    simp [commonPfxLen_self]
  · have hpm : p ∈ indexPairs n.length n.length := by
      rw [hsp]
      exact List.mem_append.mpr (Or.inr (List.mem_cons_self _ _))
    obtain ⟨hp1, hp2⟩ := indexPairs_mem.mp hpm
    have hdiag : p.1 = p.2 := by
      by_contra hne
      have hdlt : min p.1 p.2 < n.length := lt_of_le_of_lt (min_le_left _ _) hp1
      have hdmem : ((min p.1 p.2, min p.1 p.2) : Nat × Nat)
          ∈ indexPairs n.length n.length := indexPairs_mem.mpr ⟨hdlt, hdlt⟩
      have hrun : cleanRunLen pop (n.drop p.1) (n.drop p.2)
          ≤ cleanRunLen pop (n.drop (min p.1 p.2)) (n.drop (min p.1 p.2)) := by
        rcases le_total p.1 p.2 with hle | hle
        · rw [Nat.min_eq_left hle]
          exact cleanRunLen_le_diag_left pop _ _
        · rw [Nat.min_eq_right hle]
          exact cleanRunLen_le_diag_right pop _ _
      rw [hsp] at hdmem
      rcases List.mem_append.mp hdmem with hin | hin
      · exact absurd (lt_of_le_of_lt hrun (hpre _ hin)) (lt_irrefl _)
      · rcases List.mem_cons.mp hin with heq2 | hin'
        · have e1 : min p.1 p.2 = p.1 := congrArg Prod.fst heq2
          have e2 : min p.1 p.2 = p.2 := congrArg Prod.snd heq2
          omega
        · have hsort := indexPairs_pairwise n.length n.length
          rw [hsp] at hsort
          have hrel := (List.pairwise_cons.mp (List.pairwise_append.mp hsort).2.1).1 _ hin'
          dsimp only at hrel
          omega
    obtain ⟨pi, pj⟩ := p
    dsimp only at hdiag heq hgt
    subst hdiag
    dsimp only at hp1 hp2
    have hk := cleanRunLen_le_left pop (n.drop pi) (n.drop pi)
    rw [List.length_drop] at hk
    show extendMatch n n (flmRaw pop n n) = _
    unfold flmRaw
    rw [heq]
    unfold extendMatch backLen fwdLen
    dsimp only
    have htake : ((n.take pi).reverse).length = pi := by
      rw [List.length_reverse, List.length_take]
      omega
    rw [commonPfxLen_self, htake, commonPfxLen_self, List.length_drop]
    simp only [Prod.mk.injEq]
    refine ⟨by omega, by omega, by omega⟩

theorem matchingBlocksFuel_nil_left [DecidableEq α] (pop : α → Bool) (fuel : Nat)
    (b : List α) : matchingBlocksFuel pop fuel ([] : List α) b = [] := by
  cases fuel with
  | zero => rfl
  | succ f =>
    unfold matchingBlocksFuel
    simp [findLongestMatch, flmRaw, extendMatch, backLen, fwdLen, indexPairs, commonPfxLen]

/-! ## Chain well-formedness of the matching blocks -/

theorem chainOK_nil {i j la lb : Nat} : chainOK i j la lb [] ↔ i ≤ la ∧ j ≤ lb := Iff.rfl

theorem chainOK_mono {la lb : Nat} :
    ∀ {l : List (Nat × Nat × Nat)} {i j i' j' : Nat}, i' ≤ i → j' ≤ j →
      chainOK i j la lb l → chainOK i' j' la lb l := by
  intro l
  cases l with
  | nil => intro i j i' j' h1 h2 h3; exact ⟨le_trans h1 h3.1, le_trans h2 h3.2⟩
  | cons x rest =>
    intro i j i' j' h1 h2 h3
    obtain ⟨ha, hb, hc⟩ := h3
    exact ⟨le_trans h1 ha, le_trans h2 hb, hc⟩

theorem chainOK_append {la lb m n : Nat} {l2 : List (Nat × Nat × Nat)} :
    ∀ {l1 : List (Nat × Nat × Nat)} {i j : Nat},
      chainOK i j m n l1 → chainOK m n la lb l2 → chainOK i j la lb (l1 ++ l2) := by
  intro l1
  induction l1 with
  | nil =>
    intro i j h1 h2
    exact chainOK_mono h1.1 h1.2 h2
  | cons x rest ih =>
    intro i j h1 h2
    obtain ⟨ha, hb, hc⟩ := h1
    exact ⟨ha, hb, ih hc h2⟩

theorem chainOK_shift {u v : Nat} (s t : Nat) :
    ∀ {l : List (Nat × Nat × Nat)} {i j : Nat}, chainOK i j u v l →
      chainOK (i + s) (j + t) (u + s) (v + t)
        (l.map fun x => (x.1 + s, x.2.1 + t, x.2.2)) := by
  intro l
  induction l with
  | nil => intro i j h; exact ⟨Nat.add_le_add_right h.1 s, Nat.add_le_add_right h.2 t⟩
  | cons x rest ih =>
    intro i j h
    obtain ⟨ha, hb, hc⟩ := h
    refine ⟨Nat.add_le_add_right ha s, Nat.add_le_add_right hb t, ?_⟩
    have := ih hc
    simpa [Nat.add_right_comm] using this

theorem chainOK_mergeBlocks {la lb : Nat} :
    ∀ {xs : List (Nat × Nat × Nat)} {cur : Nat × Nat × Nat} {i j : Nat},
      chainOK i j la lb (cur :: xs) → chainOK i j la lb (mergeBlocks cur xs) := by
  intro xs
  induction xs with
  | nil => intro cur i j h; exact h
  | cons x rest ih =>
    intro cur i j h
    obtain ⟨ha, hb, hc⟩ := h
    obtain ⟨hd, he, hf⟩ := hc
    unfold mergeBlocks
    by_cases hcond : cur.1 + cur.2.2 = x.1 ∧ cur.2.1 + cur.2.2 = x.2.1
    · simp only [hcond, and_self, if_true]
      refine ih ⟨ha, hb, ?_⟩
      have h1 : cur.1 + (cur.2.2 + x.2.2) = x.1 + x.2.2 := by omega
      have h2 : cur.2.1 + (cur.2.2 + x.2.2) = x.2.1 + x.2.2 := by omega
      simpa [h1, h2] using hf
    · simp only [hcond, if_false]
      exact ⟨ha, hb, ih ⟨hd, he, hf⟩⟩

theorem matchingBlocksFuel_chain [DecidableEq α] (pop : α → Bool) :
    ∀ (fuel : Nat) (a b : List α),
      chainOK 0 0 a.length b.length (matchingBlocksFuel pop fuel a b) := by
  intro fuel
  induction fuel with
  | zero => intro a b; exact ⟨Nat.zero_le _, Nat.zero_le _⟩
  | succ f ih =>
    intro a b
    unfold matchingBlocksFuel
    by_cases hk : (findLongestMatch pop a b).2.2 = 0
    · simp only [hk, if_true]
      exact ⟨Nat.zero_le _, Nat.zero_le _⟩
    · simp only [hk, if_false]
      obtain ⟨hb1, hb2⟩ := findLongestMatch_bounds pop a b
      set m := findLongestMatch pop a b with hm
      have hi : m.1 ≤ a.length := by omega
      have hj : m.2.1 ≤ b.length := by omega
      have hleft := ih (a.take m.1) (b.take m.2.1)
      rw [List.length_take, Nat.min_eq_left hi, List.length_take, Nat.min_eq_left hj] at hleft
      have hright := ih (a.drop (m.1 + m.2.2)) (b.drop (m.2.1 + m.2.2))
      rw [List.length_drop, List.length_drop] at hright
      have hshift := chainOK_shift (m.1 + m.2.2) (m.2.1 + m.2.2) hright
      rw [Nat.sub_add_cancel hb1, Nat.sub_add_cancel hb2, Nat.zero_add, Nat.zero_add] at hshift
      exact chainOK_append hleft ⟨le_refl _, le_refl _, hshift⟩

theorem getMatchingBlocks_chain [DecidableEq α] (a b : List α) :
    chainOK 0 0 a.length b.length (getMatchingBlocks a b) := by
  unfold getMatchingBlocks
  have hsent : chainOK a.length b.length a.length b.length
      [(a.length, b.length, 0)] :=
    ⟨le_refl _, le_refl _, le_refl _, le_refl _⟩
  have h := matchingBlocksFuel_chain (popularPred b) a.length a b
  cases hmb : matchingBlocksFuel (popularPred b) a.length a b with
  | nil =>
    exact @chainOK_append a.length b.length a.length b.length _ [] 0 0
      ⟨Nat.zero_le _, Nat.zero_le _⟩ hsent
  | cons x xs =>
    rw [hmb] at h
    exact chainOK_append (chainOK_mergeBlocks h) hsent

theorem sumMatchSizes_le {la lb : Nat} :
    ∀ {l : List (Nat × Nat × Nat)} {i j : Nat}, chainOK i j la lb l →
      i + sumMatchSizes l ≤ la ∧ j + sumMatchSizes l ≤ lb := by
  intro l
  induction l with
  | nil => intro i j h; simpa [sumMatchSizes] using h
  | cons x rest ih =>
    intro i j h
    obtain ⟨ai, bj, k⟩ := x
    obtain ⟨ha, hb, hc⟩ := h
    have := ih hc
    simp only [sumMatchSizes, List.map_cons, List.sum_cons] at this ⊢
    omega

/-! ## The tiling property of the opcodes -/

theorem pySlice_split (l : List α) {m1 m2 m3 : Nat} (h1 : m1 ≤ m2) (h2 : m2 ≤ m3) :
    pySlice l m1 m3 = pySlice l m1 m2 ++ pySlice l m2 m3 := by
  unfold pySlice
  rw [show m3 - m1 = (m2 - m1) + (m3 - m2) by omega, List.take_add, List.drop_drop,
    show m1 + (m2 - m1) = m2 by omega]

theorem pySlice_refl (l : List α) (m : Nat) : pySlice l m m = [] := by
  simp [pySlice]

theorem endCursor_append :
    ∀ (l1 l2 : List (Nat × Nat × Nat)) (i j : Nat),
      endCursor i j (l1 ++ l2) = endCursor (endCursor i j l1).1 (endCursor i j l1).2 l2 := by
  intro l1
  induction l1 with
  | nil => intro l2 i j; rfl
  | cons x rest ih =>
    intro l2 i j
    obtain ⟨ai, bj, k⟩ := x
    exact ih l2 (ai + k) (bj + k)

theorem endCursor_ge {la lb : Nat} :
    ∀ {l : List (Nat × Nat × Nat)} {i j : Nat}, chainOK i j la lb l →
      i ≤ (endCursor i j l).1 ∧ j ≤ (endCursor i j l).2 ∧
        (endCursor i j l).1 ≤ la ∧ (endCursor i j l).2 ≤ lb := by
  intro l
  induction l with
  | nil => intro i j h; exact ⟨le_refl _, le_refl _, h.1, h.2⟩
  | cons x rest ih =>
    intro i j h
    obtain ⟨ai, bj, k⟩ := x
    obtain ⟨ha, hb, hc⟩ := h
    have := ih hc
    refine ⟨?_, ?_, this.2.2.1, this.2.2.2⟩
    · calc i ≤ ai + k := by omega
        _ ≤ _ := this.1
    · calc j ≤ bj + k := by omega
        _ ≤ _ := this.2.1

theorem opcodesFrom_cons (i j ai bj k : Nat) (rest : List (Nat × Nat × Nat)) :
    opcodesFrom i j ((ai, bj, k) :: rest)
      = (if i < ai ∧ j < bj then [(⟨.replace, i, ai, j, bj⟩ : Op)]
         else if i < ai then [⟨.delete, i, ai, j, bj⟩]
         else if j < bj then [⟨.insert, i, ai, j, bj⟩]
         else [])
        ++ (if k ≠ 0 then [(⟨.equal, ai, ai + k, bj, bj + k⟩ : Op)] else [])
        ++ opcodesFrom (ai + k) (bj + k) rest := rfl

theorem opcodesFrom_tiles (a b : List α) :
    ∀ (l : List (Nat × Nat × Nat)) (i j : Nat), chainOK i j a.length b.length l →
      ((opcodesFrom i j l).map fun op => pySlice a op.i1 op.i2).flatten
          = pySlice a i (endCursor i j l).1
        ∧ ((opcodesFrom i j l).map fun op => pySlice b op.j1 op.j2).flatten
          = pySlice b j (endCursor i j l).2 := by
  intro l
  induction l with
  | nil => intro i j _; simp [opcodesFrom, endCursor, pySlice_refl]
  | cons blk rest ih =>
    intro i j h
    obtain ⟨ai, bj, k⟩ := blk
    obtain ⟨ha, hb, hc⟩ := h
    obtain ⟨ihA, ihB⟩ := ih (ai + k) (bj + k) hc
    have hge := @endCursor_ge a.length b.length _ _ _ hc
    have hcur : endCursor i j ((ai, bj, k) :: rest) = endCursor (ai + k) (bj + k) rest := rfl
    have hpreA : (((if i < ai ∧ j < bj then [(⟨.replace, i, ai, j, bj⟩ : Op)]
        else if i < ai then [⟨.delete, i, ai, j, bj⟩]
        else if j < bj then [⟨.insert, i, ai, j, bj⟩]
        else []) : List Op).map fun op => pySlice a op.i1 op.i2).flatten = pySlice a i ai := by
      split_ifs with h1 h2 h3
      · simp
      · simp
      · simp
      · rw [show i = ai by omega]
        simp [pySlice_refl]
    have hpreB : (((if i < ai ∧ j < bj then [(⟨.replace, i, ai, j, bj⟩ : Op)]
        else if i < ai then [⟨.delete, i, ai, j, bj⟩]
        else if j < bj then [⟨.insert, i, ai, j, bj⟩]
        else []) : List Op).map fun op => pySlice b op.j1 op.j2).flatten = pySlice b j bj := by
      split_ifs with h1 h2 h3
      · simp
      · simp
      · simp
      · rw [show j = bj by omega]
        simp [pySlice_refl]
    have heqA : (((if k ≠ 0 then [(⟨.equal, ai, ai + k, bj, bj + k⟩ : Op)] else []) : List Op).map
        fun op => pySlice a op.i1 op.i2).flatten = pySlice a ai (ai + k) := by
      split_ifs with h4
      · simp
      · rw [show k = 0 by omega]
        simp [pySlice_refl]
    have heqB : (((if k ≠ 0 then [(⟨.equal, ai, ai + k, bj, bj + k⟩ : Op)] else []) : List Op).map
        fun op => pySlice b op.j1 op.j2).flatten = pySlice b bj (bj + k) := by
      split_ifs with h4
      · simp
      · rw [show k = 0 by omega]
        simp [pySlice_refl]
    constructor
    · rw [hcur, opcodesFrom_cons]
      simp only [List.map_append, List.flatten_append]
      rw [hpreA, heqA, ihA, ← pySlice_split a ha (by omega : ai ≤ ai + k),
        ← pySlice_split a (le_trans ha (by omega : ai ≤ ai + k)) hge.1]
    · rw [hcur, opcodesFrom_cons]
      simp only [List.map_append, List.flatten_append]
      rw [hpreB, heqB, ihB, ← pySlice_split b hb (by omega : bj ≤ bj + k),
        ← pySlice_split b (le_trans hb (by omega : bj ≤ bj + k)) hge.2.1]

theorem endCursor_getMatchingBlocks [DecidableEq α] (a b : List α) :
    endCursor 0 0 (getMatchingBlocks a b) = (a.length, b.length) := by
  unfold getMatchingBlocks
  rw [endCursor_append]
  rfl

theorem getOpcodes_tiles [DecidableEq α] (a b : List α) :
    ((getOpcodes a b).map fun op => pySlice a op.i1 op.i2).flatten = a ∧
      ((getOpcodes a b).map fun op => pySlice b op.j1 op.j2).flatten = b := by
  have h := opcodesFrom_tiles a b (getMatchingBlocks a b) 0 0 (getMatchingBlocks_chain a b)
  rw [endCursor_getMatchingBlocks] at h
  unfold getOpcodes
  simpa [pySlice, List.take_length] using h

/-! ## Bounds and fixed points of the ratio -/

theorem seqRatio_nonneg [DecidableEq α] (a b : List α) : 0 ≤ seqRatio a b := by
  unfold seqRatio
  split_ifs with h
  · norm_num
  · positivity

theorem seqRatio_le_one [DecidableEq α] (a b : List α) : seqRatio a b ≤ 1 := by
  unfold seqRatio
  split_ifs with h
  · exact le_refl 1
  · have hpos : (0 : ℚ) < (a.length : ℚ) + (b.length : ℚ) := by
      have : 0 < a.length + b.length := Nat.pos_of_ne_zero h
      exact_mod_cast this
    rw [div_le_one hpos]
    have h1 := (sumMatchSizes_le (getMatchingBlocks_chain a b)).1
    have h2 := (sumMatchSizes_le (getMatchingBlocks_chain a b)).2
    have hle : 2 * sumMatchSizes (getMatchingBlocks a b) ≤ a.length + b.length := by omega
    calc (2 : ℚ) * (sumMatchSizes (getMatchingBlocks a b) : ℚ)
        = ((2 * sumMatchSizes (getMatchingBlocks a b) : Nat) : ℚ) := by push_cast; ring
      _ ≤ ((a.length + b.length : Nat) : ℚ) := by exact_mod_cast hle
      _ = (a.length : ℚ) + (b.length : ℚ) := by push_cast; ring

theorem getMatchingBlocks_self [DecidableEq α] (n : List α) (h : n ≠ []) :
    getMatchingBlocks n n = [(0, 0, n.length), (n.length, n.length, 0)] := by
  have hp : 0 < n.length := List.length_pos.mpr h
  have key : ∀ f, matchingBlocksFuel (popularPred n) (f + 1) n n = [(0, 0, n.length)] := by
    intro f
    unfold matchingBlocksFuel
    rw [findLongestMatch_self (popularPred n) n]
    have hk : ¬ n.length = 0 := by omega
    simp only [hk, if_false, List.take_zero, matchingBlocksFuel_nil_left, Nat.zero_add,
      List.drop_length, List.nil_append, List.map_nil]
  have hone : matchingBlocksFuel (popularPred n) n.length n n = [(0, 0, n.length)] := by
    calc matchingBlocksFuel (popularPred n) n.length n n
        = matchingBlocksFuel (popularPred n) ((n.length - 1) + 1) n n := by
          rw [Nat.sub_add_cancel hp]
      _ = [(0, 0, n.length)] := key _
  unfold getMatchingBlocks
  rw [hone]
  rfl

theorem seqRatio_self [DecidableEq α] (n : List α) : seqRatio n n = 1 := by
  by_cases h : n = []
  · subst h; rfl
  · have hp : 0 < n.length := List.length_pos.mpr h
    unfold seqRatio
    have hne : ¬ (n.length + n.length = 0) := by omega
    rw [getMatchingBlocks_self n h]
    simp only [hne, if_false]
    unfold sumMatchSizes
    have hq : (0 : ℚ) < (n.length : ℚ) := by exact_mod_cast hp
    simp only [List.map_cons, List.map_nil, List.sum_cons, List.sum_nil]
    push_cast
    field_simp
    ring

theorem calcTextSimilarity_nonneg (t1 t2 : Str) : 0 ≤ calcTextSimilarity t1 t2 := by
  unfold calcTextSimilarity
  split_ifs with h
  · exact le_refl 0
  · exact seqRatio_nonneg _ _

theorem calcTextSimilarity_le_one (t1 t2 : Str) : calcTextSimilarity t1 t2 ≤ 1 := by
  unfold calcTextSimilarity
  split_ifs with h
  · norm_num
  · exact seqRatio_le_one _ _

/-! ## Claim C5 -/

/-- C5 counterexample: the similarity function is NOT symmetric.  The
Ratcliff/Obershelp decomposition picks, among the longest matching blocks,
the one starting earliest in the first argument; for `"bxab"` vs `"abxb"`
this choice leaves an extra matching `'b'` in the remainder (ratio `3/4`),
while the swapped call does not (ratio `1/2`). -/
theorem C5_cex_not_symmetric :
    calcTextSimilarity (str "bxab") (str "abxb")
      ≠ calcTextSimilarity (str "abxb") (str "bxab") := by
  with_unfolding_all decide

/-- C5 amended: `_calculate_text_similarity` returns `0.0` when either raw
input is empty, returns exactly `1.0` when the trimmed, whitespace-collapsed
forms of two non-empty inputs are equal (so `similarity(a,a) = 1` for
non-empty `a`), and always lies in `[0,1]`; the symmetry clause of the
original claim is dropped (see the counterexample).  The `1.0` clause holds
even under the `autojunk` purge of sequences of 200 or more elements, which
the embedding models: on two equal sequences the junk-free extension passes
of `find_longest_match` extend a diagonal best match through any popular
elements to the full length (`findLongestMatch_self`, over an arbitrary
popularity predicate). -/
theorem C5_amended_similarity (a b : Str) :
    (a = [] ∨ b = [] → calcTextSimilarity a b = 0)
    ∧ (a ≠ [] → b ≠ [] → simNorm a = simNorm b → calcTextSimilarity a b = 1)
    ∧ 0 ≤ calcTextSimilarity a b ∧ calcTextSimilarity a b ≤ 1 := by
  refine ⟨?_, ?_, calcTextSimilarity_nonneg a b, calcTextSimilarity_le_one a b⟩
  · intro h
    unfold calcTextSimilarity
    simp [h]
  · intro h1 h2 h
    unfold calcTextSimilarity
    rw [if_neg (by tauto), h]
    exact seqRatio_self _

/-- C5 witness: the amended similarity properties at concrete inputs. -/
theorem C5_amended_similarity_witness :
    calcTextSimilarity (str "x ") (str " x") = 1
    ∧ calcTextSimilarity [] (str "x") = 0
    ∧ 0 ≤ calcTextSimilarity (str "cat") (str "dog")
    ∧ calcTextSimilarity (str "cat") (str "dog") ≤ 1 :=
  ⟨(C5_amended_similarity (str "x ") (str " x")).2.1 (by decide) (by decide) (by decide),
   (C5_amended_similarity [] (str "x")).1 (Or.inl rfl),
   (C5_amended_similarity (str "cat") (str "dog")).2.2.1,
   (C5_amended_similarity (str "cat") (str "dog")).2.2.2⟩

/-! ## Claim C1 -/

theorem filterMap_ite_none {α β : Type _} (p : α → Prop) [DecidablePred p] (g : α → β) :
    ∀ l : List α, (l.filterMap fun x => if p x then none else some (g x))
      = (l.filter fun x => decide (¬ p x)).map g := by
  intro l
  induction l with
  | nil => rfl
  | cons x xs ih =>
    by_cases h : p x <;> simp [List.filterMap_cons, List.filter_cons, h, ih]

/-- C1 counterexample: for two identical one-word documents the word-diff
emits no hunks at all (the single `equal` opcode is skipped by
`_analyze_char_word_changes`), so concatenating the emitted hunks'
`beforeWords` gives the empty sequence, not the one-word before-sequence. -/
theorem C1_cex_equal_hunks_omitted :
    ((analyzeCharWordChanges (Node.text (str "a")) (Node.text (str "a"))).map
        fun c => c.before).flatten
      ≠ splitWs (extractCleanText (Node.text (str "a"))) := by
  with_unfolding_all decide

/-- C1 amended: concatenating the word slices of ALL diff opcodes — the
discarded `equal` opcodes included — reproduces the before-word sequence
exactly, with no gaps and no overlaps (and likewise for the after side); the
emitted hunks are precisely the non-`equal` opcodes' records, in order. -/
theorem C1_amended_coverage (beforeTree afterTree : Node) :
    ((getOpcodes (splitWs (extractCleanText beforeTree))
          (splitWs (extractCleanText afterTree))).map
        fun op => pySlice (splitWs (extractCleanText beforeTree)) op.i1 op.i2).flatten
      = splitWs (extractCleanText beforeTree)
    ∧ ((getOpcodes (splitWs (extractCleanText beforeTree))
          (splitWs (extractCleanText afterTree))).map
        fun op => pySlice (splitWs (extractCleanText afterTree)) op.j1 op.j2).flatten
      = splitWs (extractCleanText afterTree)
    ∧ analyzeCharWordChanges beforeTree afterTree
      = ((getOpcodes (splitWs (extractCleanText beforeTree))
            (splitWs (extractCleanText afterTree))).filter
          fun op => decide (¬ op.tag = DTag.equal)).map
          (changeOfOp (extractCleanText beforeTree) (extractCleanText afterTree)
            (splitWs (extractCleanText beforeTree)) (splitWs (extractCleanText afterTree))) := by
  refine ⟨(getOpcodes_tiles _ _).1, (getOpcodes_tiles _ _).2, ?_⟩
  simp only [analyzeCharWordChanges]
  exact filterMap_ite_none _ _ _

/-! ## Claim C7 -/

theorem joinWS_append :
    ∀ (xs ys : List Str), xs ≠ [] → ys ≠ [] →
      joinWS (xs ++ ys) = joinWS xs ++ ' ' :: joinWS ys := by
  intro xs
  induction xs with
  | nil => intro ys h; exact absurd rfl h
  | cons w ws ih =>
    intro ys _ hy
    cases ws with
    | nil =>
      cases ys with
      | nil => exact absurd rfl hy
      | cons y ys' => rfl
    | cons w2 ws' =>
      have hrec := ih ys (by simp) hy
      show w ++ ' ' :: joinWS ((w2 :: ws') ++ ys) = (w ++ ' ' :: joinWS (w2 :: ws')) ++ ' ' :: joinWS ys
      rw [hrec]
      simp

theorem joinWS_ne_nil_of_head (w : Str) (l : List Str) (hw : w ≠ []) :
    joinWS (w :: l) ≠ [] := by
  cases l with
  | nil => simpa [joinWS] using hw
  | cons x xs => simp [joinWS]

theorem pySlice_of_concat (s u m z : Str) (hs : s = u ++ (m ++ z)) :
    pySlice s u.length (u.length + m.length) = m := by
  subst hs
  unfold pySlice
  rw [List.drop_left, show u.length + m.length - u.length = m.length by omega, List.take_left]

/-- C7: for a word-index range with `start_idx < len(words)` and
`end_idx <= len(words)`, the computed span is a half-open character range
into the normalized full text (here: any text equal to the words joined by
single spaces, which is what normalization produces) whose slice is exactly
the hunk's words joined by single spaces; out-of-range indices yield `None`. -/
theorem C7_span_correct (s : Str) (ws : List Str) (i1 i2 : Nat)
    (hjoin : joinWS ws = s) (hwords : ∀ w ∈ ws, w ≠ []) (hord : i1 ≤ i2) :
    (i1 < ws.length → i2 ≤ ws.length →
      ∃ st en, calcWordPosition s ws i1 i2 = some (st, en)
        ∧ pySlice s st en = joinWS (pySlice ws i1 i2))
    ∧ (ws.length ≤ i1 ∨ ws.length < i2 → calcWordPosition s ws i1 i2 = none) := by
  constructor
  · intro h1 h2
    have hno : ¬ (ws.length ≤ i1 ∨ ws.length < i2) := by omega
    have hcalc : calcWordPosition s ws i1 i2
        = some ((joinWS (ws.take i1)).length + (if joinWS (ws.take i1) = [] then 0 else 1),
            ((joinWS (ws.take i1)).length + (if joinWS (ws.take i1) = [] then 0 else 1))
              + (joinWS (pySlice ws i1 i2)).length) := by
      unfold calcWordPosition
      rw [if_neg hno]
    refine ⟨_, _, hcalc, ?_⟩
    have hsplit : ws = ws.take i1 ++ (pySlice ws i1 i2 ++ ws.drop i2) := by
      conv_lhs => rw [← List.take_append_drop i1 ws]
      congr 1
      conv_lhs => rw [← List.take_append_drop (i2 - i1) (ws.drop i1)]
      congr 1
      rw [List.drop_drop, show i1 + (i2 - i1) = i2 by omega]
    by_cases hmidnil : pySlice ws i1 i2 = []
    · rw [hmidnil]
      show pySlice s _ (_ + (joinWS []).length) = joinWS []
      simp [joinWS, pySlice_refl]
    · have hframe : ∃ u z, s = u ++ (joinWS (pySlice ws i1 i2) ++ z)
          ∧ u.length = (joinWS (ws.take i1)).length
              + (if joinWS (ws.take i1) = [] then 0 else 1) := by
        have hinner : ∃ z, joinWS (pySlice ws i1 i2 ++ ws.drop i2)
            = joinWS (pySlice ws i1 i2) ++ z := by
          by_cases hpost : ws.drop i2 = []
          · exact ⟨[], by rw [hpost]; simp⟩
          · exact ⟨' ' :: joinWS (ws.drop i2), joinWS_append _ _ hmidnil hpost⟩
        obtain ⟨z, hz⟩ := hinner
        by_cases hprenil : ws.take i1 = []
        · refine ⟨[], z, ?_, by simp [hprenil, joinWS]⟩
          rw [← hjoin]
          conv_lhs => rw [hsplit]
          rw [hprenil, List.nil_append, hz, List.nil_append]
        · have hjp : joinWS (ws.take i1) ≠ [] := by
            obtain ⟨w, rest, hw⟩ := List.exists_cons_of_ne_nil hprenil
            rw [hw]
            refine joinWS_ne_nil_of_head _ _ ?_
            have : w ∈ ws.take i1 := by rw [hw]; exact List.mem_cons_self _ _
            exact hwords w (List.mem_of_mem_take this)
          refine ⟨joinWS (ws.take i1) ++ [' '], z, ?_, by simp [hjp]⟩
          have houter : joinWS ws
              = joinWS (ws.take i1) ++ ' ' :: joinWS (pySlice ws i1 i2 ++ ws.drop i2) := by
            conv_lhs => rw [hsplit]
            exact joinWS_append _ _ hprenil (by simp [hmidnil])
          rw [← hjoin, houter, hz]
          simp
      obtain ⟨u, z, hsz, hul⟩ := hframe
      have hres := pySlice_of_concat s u (joinWS (pySlice ws i1 i2)) z hsz
      rw [hul] at hres
      exact hres
  · intro h
    unfold calcWordPosition
    rw [if_pos h]

/-- C7 witness: the span of words `[1,2)` of `"a b c"` is `(2,3)` and slicing
recovers `"b"`; an out-of-range end index yields `None`. -/
theorem C7_span_correct_witness :
    calcWordPosition (str "a b c") [str "a", str "b", str "c"] 1 2 = some (2, 3)
    ∧ pySlice (str "a b c") 2 3 = str "b"
    ∧ calcWordPosition (str "a b c") [str "a", str "b", str "c"] 1 4 = none := by
  have h2 : calcWordPosition (str "a b c") [str "a", str "b", str "c"] 1 2 = some (2, 3) := by
    decide
  refine ⟨h2, ?_, ?_⟩
  · obtain ⟨st, en, hsome, hslice⟩ :=
      (C7_span_correct (str "a b c") [str "a", str "b", str "c"] 1 2 (by decide) (by decide)
        (by decide)).1 (by decide) (by decide)
    rw [h2] at hsome
    have hpair := Option.some.inj hsome
    injection hpair with hst hen
    subst hst
    subst hen
    rw [hslice]
    decide
  · exact (C7_span_correct (str "a b c") [str "a", str "b", str "c"] 1 4 (by decide) (by decide)
      (by decide)).2 (by decide)

/-! ## Selection lemmas: stable best-candidate and best-group choice -/

theorem foldBest_spec :
    ∀ (cs : List Cand) (c : Cand),
      (∀ x ∈ c :: cs, x.finalScore ≤ (cs.foldl candStep c).finalScore)
      ∧ ∃ pre post, c :: cs = pre ++ (cs.foldl candStep c) :: post
          ∧ ∀ y ∈ pre, y.finalScore < (cs.foldl candStep c).finalScore := by
  intro cs
  induction cs with
  | nil =>
    intro c
    exact ⟨by simp, [], [], rfl, by simp⟩
  | cons x xs ih =>
    intro c
    rw [List.foldl_cons]
    by_cases hlt : c.finalScore < x.finalScore
    · have hstep : candStep c x = x := by simp [candStep, hlt]
      rw [hstep]
      obtain ⟨hmax, pre, post, hdec, hpre⟩ := ih x
      refine ⟨?_, c :: pre, post, by rw [List.cons_append, ← hdec], ?_⟩
      · intro y hy
        rcases List.mem_cons.mp hy with rfl | hy'
        · exact le_trans (le_of_lt hlt) (hmax x (List.mem_cons_self _ _))
        · exact hmax y hy'
      · intro y hy
        rcases List.mem_cons.mp hy with rfl | hy'
        · exact lt_of_lt_of_le hlt (hmax x (List.mem_cons_self _ _))
        · exact hpre y hy'
    · have hstep : candStep c x = c := by simp [candStep, hlt]
      rw [hstep]
      obtain ⟨hmax, pre, post, hdec, hpre⟩ := ih c
      have hxle : x.finalScore ≤ (xs.foldl candStep c).finalScore :=
        le_trans (le_of_not_lt hlt) (hmax c (List.mem_cons_self _ _))
      refine ⟨?_, ?_⟩
      · intro y hy
        rcases List.mem_cons.mp hy with rfl | hy'
        · exact hmax y (List.mem_cons_self _ _)
        rcases List.mem_cons.mp hy' with rfl | hy''
        · exact hxle
        · exact hmax y (List.mem_cons_of_mem _ hy'')
      · cases pre with
        | nil =>
          have hbest : xs.foldl candStep c = c := by
            have := congrArg (fun l => l.head?) hdec
            simpa using this.symm
          exact ⟨[], x :: xs, by rw [hbest]; rfl, by simp⟩
        | cons p ps =>
          have hc : c = p ∧ xs = ps ++ (xs.foldl candStep c) :: post := by
            rw [List.cons_append] at hdec
            exact ⟨List.head_eq_of_cons_eq hdec, List.tail_eq_of_cons_eq hdec⟩
          obtain ⟨rfl, hxs⟩ := hc
          refine ⟨c :: x :: ps, post, ?_, ?_⟩
          · rw [List.cons_append, List.cons_append, ← hxs]
          · intro y hy
            have hcbest : c.finalScore < (xs.foldl candStep c).finalScore :=
              hpre c (List.mem_cons_self _ _)
            rcases List.mem_cons.mp hy with rfl | hy'
            · exact hcbest
            rcases List.mem_cons.mp hy' with rfl | hy''
            · exact lt_of_le_of_lt (le_of_not_lt hlt) hcbest
            · exact hpre y (List.mem_cons_of_mem _ hy'')

theorem pickBest_eq_none (l : List Cand) : pickBest l = none ↔ l = [] := by
  cases l with
  | nil => simp [pickBest]
  | cons c cs => simp [pickBest]

theorem pickBest_spec (l : List Cand) (best : Cand) (h : pickBest l = some best) :
    best ∈ l ∧ (∀ x ∈ l, x.finalScore ≤ best.finalScore)
      ∧ ∃ pre post, l = pre ++ best :: post
          ∧ ∀ y ∈ pre, y.finalScore < best.finalScore := by
  cases l with
  | nil => cases h
  | cons c cs =>
    have hb : cs.foldl candStep c = best := by
      have := h
      unfold pickBest at this
      exact Option.some.inj this
    obtain ⟨hmax, pre, post, hdec, hpre⟩ := foldBest_spec cs c
    rw [hb] at hmax hdec hpre
    refine ⟨?_, hmax, pre, post, hdec, hpre⟩
    rw [hdec]
    exact List.mem_append.mpr (Or.inr (List.mem_cons_self _ _))

theorem bestGroupFold_spec :
    ∀ (l : List (List Leaf × ℚ)) (acc : Option (List Leaf) × ℚ),
      (l.foldl bestGroupStep acc = acc ∨
        ∃ x ∈ l, l.foldl bestGroupStep acc = (some x.1, x.2))
      ∧ acc.2 ≤ (l.foldl bestGroupStep acc).2
      ∧ ∀ x ∈ l, x.2 ≤ (l.foldl bestGroupStep acc).2 := by
  intro l
  induction l with
  | nil => intro acc; exact ⟨Or.inl rfl, le_refl _, by simp⟩
  | cons x xs ih =>
    intro acc
    rw [List.foldl_cons]
    obtain ⟨hor, hmono, hmax⟩ := ih (bestGroupStep acc x)
    have hstep2 : acc.2 ≤ (bestGroupStep acc x).2 := by
      unfold bestGroupStep
      split_ifs with h
      · exact le_of_lt h
      · exact le_refl _
    have hstepx : x.2 ≤ (bestGroupStep acc x).2 := by
      unfold bestGroupStep
      split_ifs with h
      · exact le_refl _
      · exact le_of_not_lt h
    refine ⟨?_, le_trans hstep2 hmono, ?_⟩
    · rcases hor with heq | ⟨y, hy, heq⟩
      · rw [heq]
        unfold bestGroupStep
        split_ifs with h
        · exact Or.inr ⟨x, List.mem_cons_self _ _, rfl⟩
        · exact Or.inl rfl
      · exact Or.inr ⟨y, List.mem_cons_of_mem _ hy, heq⟩
    · intro y hy
      rcases List.mem_cons.mp hy with rfl | hy'
      · exact le_trans hstepx hmono
      · exact hmax y hy'

theorem pickBestGroup_spec (scored : List (List Leaf × ℚ)) :
    (pickBestGroup scored = (none, 0) ∨
      ∃ x ∈ scored, pickBestGroup scored = (some x.1, x.2))
    ∧ ∀ x ∈ scored, x.2 ≤ (pickBestGroup scored).2 := by
  have h := bestGroupFold_spec scored (none, 0)
  exact ⟨h.1, h.2.2⟩

/-! ## Branch lemmas for the locator -/

theorem fah_empty_eq (root : Node) (t css tip : Str) (aH : Bool) (cB cA : Option Str)
    (h : pyStrip t = []) :
    findAndHighlightTextByContent root t css tip aH cB cA = ⟨false, root, .emptyTarget⟩ := by
  unfold findAndHighlightTextByContent
  rw [if_pos (by simp [h])]

theorem fah_primary_eq (root : Node) (t css tip : Str) (aH : Bool) (cB cA : Option Str)
    (hne : pyStrip t ≠ []) (best : Cand)
    (hpick : pickBest (primaryCands root (pyStrip t) cB cA) = some best) :
    findAndHighlightTextByContent root t css tip aH cB cA
      = if ABSOLUTE_THRESHOLD ≤ best.finalScore then
          (if aH then
            ⟨true, replaceAt root best.leaf.path (primaryMarker css tip best.text),
              .scanInfo (primaryCands root (pyStrip t) cB cA) 1⟩
          else ⟨true, root, .scanInfo (primaryCands root (pyStrip t) cB cA) 1⟩)
        else ⟨false, root, .scanInfo (primaryCands root (pyStrip t) cB cA) 0⟩ := by
  unfold findAndHighlightTextByContent
  rw [if_neg (by simpa using hne)]
  simp only [hpick]

theorem fah_fallback_eq (root : Node) (t css tip : Str) (aH : Bool) (cB cA : Option Str)
    (hne : pyStrip t ≠ [])
    (hnil : primaryCands root (pyStrip t) cB cA = []) :
    findAndHighlightTextByContent root t css tip aH cB cA
      = fallbackLocate root (pyStrip t) css tip aH cB cA := by
  unfold findAndHighlightTextByContent
  rw [if_neg (by simpa using hne)]
  simp only [hnil]
  rfl

/-! ## Claim C9 -/

/-- C9: a target that is empty after trimming makes the locator return
immediately with the empty-target diagnostic; the tree is returned unchanged,
and the failure outcome is the same for every tree — no leaf is consulted. -/
theorem C9_empty_target (root : Node) (t css tip : Str) (aH : Bool) (cB cA : Option Str)
    (h : pyStrip t = []) :
    findAndHighlightTextByContent root t css tip aH cB cA
      = ⟨false, root, .emptyTarget⟩ :=
  fah_empty_eq root t css tip aH cB cA h

/-- C9 witness: a whitespace-only target against a concrete tree. -/
theorem C9_empty_target_witness :
    findAndHighlightTextByContent docHello (str "   ") (str "c") (str "t") true none none
      = ⟨false, docHello, .emptyTarget⟩ :=
  C9_empty_target docHello (str "   ") (str "c") (str "t") true none none (by decide)

/-! ## Claim C10 -/

theorem primaryCands_no_ctx (root : Node) (target : Str) :
    primaryCands root target none none
      = (leaves root).filterMap fun lf =>
          if parentOKForScan lf && !(textContentOf lf).isEmpty
              && containsSub target (textContentOf lf) then
            some ⟨lf, textContentOf lf, calcTextSimilarity (textContentOf lf) target, 0,
              calcTextSimilarity (textContentOf lf) target + 0 * (1 / 2)⟩
          else none := rfl

/-- C10: the stored word-context reaches the locator only when both context
word lists of one side are non-empty, the before side being preferred; when
neither side qualifies no context is passed, and then every candidate's
context score is `0` and its final score equals its basic similarity. -/
theorem C10_context_selection (c : Change) (root : Node) (target : Str) :
    (c.beforeCtxBefore ≠ [] → c.beforeCtxAfter ≠ [] →
      extractChangeContext c
        = (some (joinWS c.beforeCtxBefore), some (joinWS c.beforeCtxAfter)))
    ∧ ((c.beforeCtxBefore = [] ∨ c.beforeCtxAfter = []) →
        c.afterCtxBefore ≠ [] → c.afterCtxAfter ≠ [] →
        extractChangeContext c
          = (some (joinWS c.afterCtxBefore), some (joinWS c.afterCtxAfter)))
    ∧ ((c.beforeCtxBefore = [] ∨ c.beforeCtxAfter = []) →
        (c.afterCtxBefore = [] ∨ c.afterCtxAfter = []) →
        extractChangeContext c = (none, none))
    ∧ (∀ cand ∈ primaryCands root target none none,
        cand.ctxScore = 0 ∧ cand.finalScore = cand.basicSim) := by
  refine ⟨?_, ?_, ?_, ?_⟩
  · intro h1 h2
    unfold extractChangeContext
    rw [if_pos (by simp [List.isEmpty_iff, h1, h2])]
  · intro h1 h2 h3
    unfold extractChangeContext
    rw [if_neg (by simp [List.isEmpty_iff]; tauto), if_pos (by simp [List.isEmpty_iff, h2, h3])]
  · intro h1 h2
    unfold extractChangeContext
    rw [if_neg (by simp [List.isEmpty_iff]; tauto), if_neg (by simp [List.isEmpty_iff]; tauto)]
  · intro cand hc
    rw [primaryCands_no_ctx, List.mem_filterMap] at hc
    obtain ⟨lf, _, hsome⟩ := hc
    by_cases hcond : (parentOKForScan lf && !(textContentOf lf).isEmpty
        && containsSub target (textContentOf lf)) = true
    · rw [if_pos hcond] at hsome
      have := Option.some.inj hsome
      subst this
      refine ⟨rfl, ?_⟩
      show calcTextSimilarity (textContentOf lf) target + 0 * (1 / 2)
          = calcTextSimilarity (textContentOf lf) target
      ring
    · rw [if_neg hcond] at hsome
      cases hsome

/-- C10 witness: the three context-selection cases on concrete changes, and
the no-context score reduction for the concrete `"cat"` candidate. -/
theorem C10_context_selection_witness :
    extractChangeContext chgBefore = (some (str "p"), some (str "q"))
    ∧ extractChangeContext chgAfter = (some (str "r"), some (str "s"))
    ∧ extractChangeContext chgNone = (none, none)
    ∧ catCand.ctxScore = 0 ∧ catCand.finalScore = catCand.basicSim :=
  ⟨(C10_context_selection chgBefore docCat (str "cat")).1 (by decide) (by decide),
   (C10_context_selection chgAfter docCat (str "cat")).2.1 (Or.inl rfl) (by decide) (by decide),
   (C10_context_selection chgNone docCat (str "cat")).2.2.1 (Or.inl rfl) (Or.inl rfl),
   (C10_context_selection chgNone docCat (str "cat")).2.2.2 catCand
     (by with_unfolding_all decide)⟩

/-! ## Claim C2 -/

/-- C2 counterexample: the code's primary scan matches the *trimmed* target,
not the normalized one.  For the target `"a  b"` (double space) and a leaf
`"a b"`, the leaf's normalized text contains the normalized target and the
claimed candidate score is `1 ≥ 0.2`, yet the locator reports no match (it
even falls through to the sequence fallback). -/
theorem C2_cex_normalized_vs_trimmed :
    containsSub (pyNormText (str "a  b")) (pyNormText (str "a b")) = true
    ∧ ABSOLUTE_THRESHOLD ≤ calcTextSimilarity (pyNormText (str "a b")) (str "a  b")
    ∧ (findAndHighlightTextByContent docAB (str "a  b") (str "c") (str "t") true
        none none).success = false
    ∧ (findAndHighlightTextByContent docAB (str "a  b") (str "c") (str "t") true
        none none).debug = .seqFail 0 := by
  refine ⟨by decide, by with_unfolding_all decide, ?_, ?_⟩
  · with_unfolding_all decide
  · with_unfolding_all decide

/-- C2 amended: with "normalized target" weakened to the *trimmed* target
(the code's actual containment test), the locator scores every containing
leaf with `final = basic + 0.5*context`, selects the maximal final score with
ties resolved in favour of the candidate scanned first in document order, and
accepts it exactly when `final ≥ 0.2`, otherwise reporting no match with the
full candidate list as diagnostics and leaving the tree unchanged. -/
theorem C2_amended_locator (root : Node) (t css tip : Str) (cB cA : Option Str)
    (hne : pyStrip t ≠ [])
    (hcands : primaryCands root (pyStrip t) cB cA ≠ []) :
    ∃ best, pickBest (primaryCands root (pyStrip t) cB cA) = some best
      ∧ best ∈ primaryCands root (pyStrip t) cB cA
      ∧ (∀ x ∈ primaryCands root (pyStrip t) cB cA, x.finalScore ≤ best.finalScore)
      ∧ (∃ pre post, primaryCands root (pyStrip t) cB cA = pre ++ best :: post
          ∧ ∀ y ∈ pre, y.finalScore < best.finalScore)
      ∧ (∀ x ∈ primaryCands root (pyStrip t) cB cA,
          x.finalScore = x.basicSim + x.ctxScore * (1 / 2)
            ∧ x.basicSim = calcTextSimilarity x.text (pyStrip t)
            ∧ x.text = textContentOf x.leaf
            ∧ containsSub (pyStrip t) x.text = true)
      ∧ ((findAndHighlightTextByContent root t css tip true cB cA).success = true
          ↔ ABSOLUTE_THRESHOLD ≤ best.finalScore)
      ∧ (¬ ABSOLUTE_THRESHOLD ≤ best.finalScore →
          findAndHighlightTextByContent root t css tip true cB cA
            = ⟨false, root, .scanInfo (primaryCands root (pyStrip t) cB cA) 0⟩)
      ∧ (ABSOLUTE_THRESHOLD ≤ best.finalScore →
          (findAndHighlightTextByContent root t css tip true cB cA).debug
            = .scanInfo (primaryCands root (pyStrip t) cB cA) 1) := by
  obtain ⟨c, cs, hl⟩ := List.exists_cons_of_ne_nil hcands
  have hpick : ∃ best, pickBest (primaryCands root (pyStrip t) cB cA) = some best := by
    rw [hl]; exact ⟨_, rfl⟩
  obtain ⟨best, hpick⟩ := hpick
  obtain ⟨hmem, hmax, pre, post, hdec, hpre⟩ := pickBest_spec _ _ hpick
  have hfields : ∀ x ∈ primaryCands root (pyStrip t) cB cA,
      x.finalScore = x.basicSim + x.ctxScore * (1 / 2)
        ∧ x.basicSim = calcTextSimilarity x.text (pyStrip t)
        ∧ x.text = textContentOf x.leaf
        ∧ containsSub (pyStrip t) x.text = true := by
    intro x hx
    rw [primaryCands, List.mem_filterMap] at hx
    obtain ⟨lf, _, hsome⟩ := hx
    by_cases hcond : (parentOKForScan lf && !(textContentOf lf).isEmpty
        && containsSub (pyStrip t) (textContentOf lf)) = true
    · rw [if_pos hcond] at hsome
      have := Option.some.inj hsome
      subst this
      refine ⟨rfl, rfl, rfl, ?_⟩
      simp only [Bool.and_eq_true] at hcond
      exact hcond.2
    · rw [if_neg hcond] at hsome
      cases hsome
  have heq := fah_primary_eq root t css tip true cB cA hne best hpick
  have heq' : findAndHighlightTextByContent root t css tip true cB cA
      = if ABSOLUTE_THRESHOLD ≤ best.finalScore then
          ⟨true, replaceAt root best.leaf.path (primaryMarker css tip best.text),
            .scanInfo (primaryCands root (pyStrip t) cB cA) 1⟩
        else ⟨false, root, .scanInfo (primaryCands root (pyStrip t) cB cA) 0⟩ := by
    rw [heq]
    by_cases hth : ABSOLUTE_THRESHOLD ≤ best.finalScore
    · rw [if_pos hth, if_pos hth, if_pos rfl]
    · rw [if_neg hth, if_neg hth]
  refine ⟨best, hpick, hmem, hmax, ⟨pre, post, hdec, hpre⟩, hfields, ?_, ?_, ?_⟩
  · by_cases hth : ABSOLUTE_THRESHOLD ≤ best.finalScore
    · rw [heq', if_pos hth]
      exact Iff.intro (fun _ => hth) (fun _ => rfl)
    · rw [heq', if_neg hth]
      exact Iff.intro (fun h => Bool.noConfusion h) (fun h => absurd h hth)
  · intro hth
    rw [heq', if_neg hth]
  · intro hth
    rw [heq', if_pos hth]

/-- C2 amended witness: the `"cat"` scenario — one containing leaf, basic
similarity `1`, accepted, with the candidate recorded in the diagnostics. -/
theorem C2_amended_locator_witness :
    (findAndHighlightTextByContent docCat (str "cat") (str "c") (str "t") true
        none none).success = true
    ∧ catCand.finalScore = catCand.basicSim + catCand.ctxScore * (1 / 2)
    ∧ (findAndHighlightTextByContent docCat (str "cat") (str "c") (str "t") true
        none none).debug = .scanInfo (primaryCands docCat (str "cat") none none) 1 := by
  obtain ⟨best, hpick, _, _, _, hfields, hiff, _, hdbg⟩ :=
    C2_amended_locator docCat (str "cat") (str "c") (str "t") none none
      (by decide) (by with_unfolding_all decide)
  have hbest : best = catCand := by
    have h1 : pickBest (primaryCands docCat (pyStrip (str "cat")) none none) = some catCand := by
      with_unfolding_all decide
    rw [hpick] at h1
    exact Option.some.inj h1
  subst hbest
  refine ⟨hiff.mpr (by with_unfolding_all decide), ?_, hdbg (by with_unfolding_all decide)⟩
  exact (hfields catCand (by with_unfolding_all decide)).1

/-! ## Claim C4 -/

theorem fallbackLocate_eq_of_some (root : Node) (target css tip : Str) (aH : Bool)
    (cB cA : Option Str) (g : List Leaf) (s : ℚ)
    (h : pickBestGroup ((groupAdjacent ((leaves root).filter (overlapCond target))).map
        fun g => (g, groupFinalScore root target cB cA g)) = (some g, s)) :
    fallbackLocate root target css tip aH cB cA
      = if ABSOLUTE_THRESHOLD ≤ s then
          (if aH then ⟨true, applyGroupHighlight root g css tip,
              .seqSuccess ((leaves root).filter (overlapCond target)).length s g.length⟩
           else ⟨false, root, .scanInfo [] 0⟩)
        else ⟨false, root, .scanInfo [] 0⟩ := by
  unfold fallbackLocate
  rw [h]

theorem fallbackLocate_eq_of_none (root : Node) (target css tip : Str) (aH : Bool)
    (cB cA : Option Str) (s : ℚ)
    (h : pickBestGroup ((groupAdjacent ((leaves root).filter (overlapCond target))).map
        fun g => (g, groupFinalScore root target cB cA g)) = (none, s)) :
    fallbackLocate root target css tip aH cB cA
      = ⟨false, root, .seqFail ((leaves root).filter (overlapCond target)).length⟩ := by
  unfold fallbackLocate
  rw [h]

/-- C4 counterexample: the fallback trigger tests containment of the
*trimmed* target, not the normalized one.  For the target `"a  b"` (double
space) against a row whose first cell is `"x a b y"`, a leaf whose normalized
text contains the normalized target exists, yet the locator runs the
sequence-group fallback and even annotates a two-cell group. -/
theorem C4_cex_fallback_despite_containing_leaf :
    containsSub (pyNormText (str "a  b")) (pyNormText (str "x a b y")) = true
    ∧ (findAndHighlightTextByContent docRow (str "a  b") (str "c") (str "t") true
        none none).success = true
    ∧ (findAndHighlightTextByContent docRow (str "a  b") (str "c") (str "t") true
        none none).debug = .seqSuccess 2 1 2 := by
  refine ⟨by decide, ?_, ?_⟩
  · with_unfolding_all decide
  · with_unfolding_all decide

/-- C4 amended: the fallback runs exactly when the primary scan (which tests
containment of the *trimmed* target in each leaf's normalized text) keeps
zero leaves; when candidates exist but the best final score is below `0.2`,
the attempt fails with the primary diagnostics and an unchanged tree — the
fallback is never consulted. -/
theorem C4_amended_fallback_iff (root : Node) (t css tip : Str) (aH : Bool)
    (cB cA : Option Str) (hne : pyStrip t ≠ []) :
    (primaryCands root (pyStrip t) cB cA = []
        ↔ ∀ lf ∈ leaves root,
            (parentOKForScan lf && !(textContentOf lf).isEmpty
              && containsSub (pyStrip t) (textContentOf lf)) = false)
    ∧ (primaryCands root (pyStrip t) cB cA = [] →
        findAndHighlightTextByContent root t css tip aH cB cA
          = fallbackLocate root (pyStrip t) css tip aH cB cA)
    ∧ (∀ best, pickBest (primaryCands root (pyStrip t) cB cA) = some best →
        ¬ ABSOLUTE_THRESHOLD ≤ best.finalScore →
        findAndHighlightTextByContent root t css tip aH cB cA
          = ⟨false, root, .scanInfo (primaryCands root (pyStrip t) cB cA) 0⟩) := by
  refine ⟨?_, ?_, ?_⟩
  · rw [primaryCands, List.filterMap_eq_nil_iff]
    constructor
    · intro h lf hlf
      cases hcond : (parentOKForScan lf && !(textContentOf lf).isEmpty
          && containsSub (pyStrip t) (textContentOf lf)) with
      | true =>
        have hnone := h lf hlf
        rw [if_pos hcond] at hnone
        cases hnone
      | false => rfl
    · intro h lf hlf
      rw [if_neg (by simp [h lf hlf])]
  · intro h
    exact fah_fallback_eq root t css tip aH cB cA hne h
  · intro best hpick hth
    rw [fah_primary_eq root t css tip aH cB cA hne best hpick, if_neg hth]

/-- C4 amended witness: one containing leaf of low similarity (`1/6 < 0.2`)
makes the attempt fail with the primary diagnostics, tree unchanged. -/
theorem C4_amended_fallback_iff_witness :
    findAndHighlightTextByContent docLong (str "a") (str "c") (str "t") true none none
      = ⟨false, docLong, .scanInfo (primaryCands docLong (pyStrip (str "a")) none none) 0⟩ :=
  (C4_amended_fallback_iff docLong (str "a") (str "c") (str "t") true none none
      (by decide)).2.2
    longCand (by with_unfolding_all decide) (by with_unfolding_all decide)

/-! ## Claim C3 -/

/-- C3: in the sequence-group fallback every candidate group's final score is
`0.2*baseSimilarity + 0.8*contextScore` when context was supplied and the
context score is positive, and `baseSimilarity` otherwise; a group is
annotated exactly when some group reaches the `0.2` threshold (the best
scorer is tracked), and otherwise the tree is unchanged and a diagnostic
record (fallback failure or the scan summary) is returned. -/
theorem C3_group_scoring (root : Node) (t css tip : Str) (cB cA : Option Str)
    (hne : pyStrip t ≠ [])
    (hnil : primaryCands root (pyStrip t) cB cA = []) :
    (∀ g ∈ groupAdjacent ((leaves root).filter (overlapCond (pyStrip t))),
        groupFinalScore root (pyStrip t) cB cA g
          = if (otruthy cB || otruthy cA) = true ∧ 0 < groupCtxScore root cB cA g
            then groupBaseSim (pyStrip t) g * (1 / 5) + groupCtxScore root cB cA g * (4 / 5)
            else groupBaseSim (pyStrip t) g)
    ∧ ((findAndHighlightTextByContent root t css tip true cB cA).success = true
        ↔ ∃ g ∈ groupAdjacent ((leaves root).filter (overlapCond (pyStrip t))),
            ABSOLUTE_THRESHOLD ≤ groupFinalScore root (pyStrip t) cB cA g)
    ∧ ((findAndHighlightTextByContent root t css tip true cB cA).success = false →
        (findAndHighlightTextByContent root t css tip true cB cA).tree = root
          ∧ ((findAndHighlightTextByContent root t css tip true cB cA).debug
                = .seqFail ((leaves root).filter (overlapCond (pyStrip t))).length
              ∨ (findAndHighlightTextByContent root t css tip true cB cA).debug
                = .scanInfo [] 0)) := by
  have heq := fah_fallback_eq root t css tip true cB cA hne hnil
  have hth0 : ¬ ABSOLUTE_THRESHOLD ≤ (0 : ℚ) := by norm_num [ABSOLUTE_THRESHOLD]
  obtain ⟨hor, hmax⟩ := pickBestGroup_spec
    ((groupAdjacent ((leaves root).filter (overlapCond (pyStrip t)))).map
      fun g => (g, groupFinalScore root (pyStrip t) cB cA g))
  refine ⟨?_, ?_, ?_⟩
  · intro g _
    unfold groupFinalScore
    by_cases hc : (otruthy cB || otruthy cA) = true
    · rw [if_pos hc]
      by_cases hs : 0 < groupCtxScore root cB cA g
      · rw [if_pos hs, if_pos ⟨hc, hs⟩]
      · rw [if_neg hs, if_neg (by tauto)]
    · rw [if_neg hc, if_neg (by tauto)]
  · rcases hor with hnone | ⟨x, hx, hsome⟩
    · rw [heq, fallbackLocate_eq_of_none root (pyStrip t) css tip true cB cA 0 hnone]
      rw [hnone] at hmax
      constructor
      · intro h
        cases h
      · rintro ⟨g, hg, hge⟩
        have : groupFinalScore root (pyStrip t) cB cA g ≤ 0 :=
          hmax (g, groupFinalScore root (pyStrip t) cB cA g)
            (List.mem_map.mpr ⟨g, hg, rfl⟩)
        exact absurd (le_trans hge this) hth0
    · have heq2 := fallbackLocate_eq_of_some root (pyStrip t) css tip true cB cA x.1 x.2 hsome
      obtain ⟨g', hg', hxeq⟩ := List.mem_map.mp hx
      by_cases hth : ABSOLUTE_THRESHOLD ≤ x.2
      · rw [heq, heq2, if_pos hth, if_pos rfl]
        refine Iff.intro (fun _ => ⟨g', hg', ?_⟩) (fun _ => rfl)
        have : x.2 = groupFinalScore root (pyStrip t) cB cA g' := by rw [← hxeq]
        rw [← this]
        exact hth
      · rw [heq, heq2, if_neg hth]
        rw [hsome] at hmax
        constructor
        · intro h
          cases h
        · rintro ⟨g, hg, hge⟩
          have : groupFinalScore root (pyStrip t) cB cA g ≤ x.2 :=
            hmax (g, groupFinalScore root (pyStrip t) cB cA g)
              (List.mem_map.mpr ⟨g, hg, rfl⟩)
          exact absurd (le_trans hge this) hth
  · intro hfail
    rcases hor with hnone | ⟨x, hx, hsome⟩
    · rw [heq, fallbackLocate_eq_of_none root (pyStrip t) css tip true cB cA 0 hnone]
      exact ⟨rfl, Or.inl rfl⟩
    · have heq2 := fallbackLocate_eq_of_some root (pyStrip t) css tip true cB cA x.1 x.2 hsome
      by_cases hth : ABSOLUTE_THRESHOLD ≤ x.2
      · rw [heq, heq2, if_pos hth, if_pos rfl] at hfail
        cases hfail
      · rw [heq, heq2, if_neg hth]
        exact ⟨rfl, Or.inr rfl⟩

/-- C3 witness: the two-cell group `["a", "b"]` of the row document scores
`1 ≥ 0.2` against the target `"a  b"` and is annotated. -/
theorem C3_group_scoring_witness :
    (findAndHighlightTextByContent docRow (str "a  b") (str "c") (str "t") true
        none none).success = true :=
  ((C3_group_scoring docRow (str "a  b") (str "c") (str "t") none none (by decide)
      (by with_unfolding_all decide)).2.1).mpr
    ⟨[rowLeafA, rowLeafB], by with_unfolding_all decide, by with_unfolding_all decide⟩

/-! ## Claim C6 -/

/-- C6: when a locate attempt with a non-empty target fails (neither the
primary candidate search nor the group fallback reached the `0.2`
threshold), the result reports no match, the tree is returned unchanged (no
text node is replaced), and the diagnostic payload is populated — either the
scan summary with its candidate list or the fallback failure record with its
candidate count. -/
theorem C6_failure_no_mutation (root : Node) (t css tip : Str) (cB cA : Option Str)
    (hne : pyStrip t ≠ [])
    (hfail : (findAndHighlightTextByContent root t css tip true cB cA).success = false) :
    (findAndHighlightTextByContent root t css tip true cB cA).tree = root
    ∧ ((findAndHighlightTextByContent root t css tip true cB cA).debug
          = .scanInfo (primaryCands root (pyStrip t) cB cA) 0
        ∨ (findAndHighlightTextByContent root t css tip true cB cA).debug = .scanInfo [] 0
        ∨ (findAndHighlightTextByContent root t css tip true cB cA).debug
          = .seqFail ((leaves root).filter (overlapCond (pyStrip t))).length) := by
  cases hpick : pickBest (primaryCands root (pyStrip t) cB cA) with
  | some best =>
    have heq := fah_primary_eq root t css tip true cB cA hne best hpick
    by_cases hth : ABSOLUTE_THRESHOLD ≤ best.finalScore
    · rw [heq, if_pos hth, if_pos rfl] at hfail
      cases hfail
    · rw [heq, if_neg hth]
      exact ⟨rfl, Or.inl rfl⟩
  | none =>
    have hnil := (pickBest_eq_none _).mp hpick
    have heq := fah_fallback_eq root t css tip true cB cA hne hnil
    obtain ⟨hor, _⟩ := pickBestGroup_spec
      ((groupAdjacent ((leaves root).filter (overlapCond (pyStrip t)))).map
        fun g => (g, groupFinalScore root (pyStrip t) cB cA g))
    rcases hor with hnone | ⟨x, _, hsome⟩
    · rw [heq, fallbackLocate_eq_of_none root (pyStrip t) css tip true cB cA 0 hnone]
      exact ⟨rfl, Or.inr (Or.inr rfl)⟩
    · have heq2 := fallbackLocate_eq_of_some root (pyStrip t) css tip true cB cA x.1 x.2 hsome
      by_cases hth : ABSOLUTE_THRESHOLD ≤ x.2
      · rw [heq, heq2, if_pos hth, if_pos rfl] at hfail
        cases hfail
      · rw [heq, heq2, if_neg hth]
        exact ⟨rfl, Or.inr (Or.inl rfl)⟩

/-- C6 witness: the "nonexistent phrase" scenario — no word of the target
occurs in the tree; the attempt fails, the tree is unchanged, and the
fallback-failure diagnostic (zero partial candidates) is returned. -/
theorem C6_failure_no_mutation_witness :
    (findAndHighlightTextByContent docHello (str "zzz qqq") (str "c") (str "t") true
        none none).tree = docHello
    ∧ (findAndHighlightTextByContent docHello (str "zzz qqq") (str "c") (str "t") true
        none none).debug = .seqFail 0 :=
  ⟨(C6_failure_no_mutation docHello (str "zzz qqq") (str "c") (str "t") none none
      (by decide) (by with_unfolding_all decide)).1,
   by with_unfolding_all decide⟩

/-! ## Claim C8: tree rewriting lemmas -/

theorem set_get_self :
    ∀ (cs : List Node) (i : Nat) (c x : Node),
      cs.get? i = some c → (cs.set i x).get? i = some x := by
  intro cs
  induction cs with
  | nil => intro i c x h; cases h
  | cons c0 cs ih =>
    intro i c x h
    cases i with
    | zero => rfl
    | succ i' => exact ih i' c x h

theorem set_get_other :
    ∀ (cs : List Node) (i j : Nat) (x : Node), j ≠ i →
      (cs.set i x).get? j = cs.get? j := by
  intro cs
  induction cs with
  | nil => intro i j x _; rfl
  | cons c0 cs ih =>
    intro i j x hne
    cases i with
    | zero =>
      cases j with
      | zero => exact absurd rfl hne
      | succ j' => rfl
    | succ i' =>
      cases j with
      | zero => rfl
      | succ j' => exact ih i' j' x (fun h => hne (by rw [h]))

theorem nodeAt_replaceAt_self :
    ∀ (p : List Nat) (t x : Node), nodeAt t p ≠ none → nodeAt (replaceAt t p x) p = some x := by
  intro p
  induction p with
  | nil => intro t x _; rfl
  | cons i rest ih =>
    intro t x h
    cases t with
    | text s => exact absurd rfl h
    | elem tag cls cs =>
      cases hget : cs.get? i with
      | none =>
        exfalso
        apply h
        show (match cs.get? i with
          | some c => nodeAt c rest
          | none => none) = none
        rw [hget]
      | some c =>
        show nodeAt (match cs.get? i with
          | some c => Node.elem tag cls (cs.set i (replaceAt c rest x))
          | none => Node.elem tag cls cs) (i :: rest) = some x
        rw [hget]
        show (match (cs.set i (replaceAt c rest x)).get? i with
          | some c => nodeAt c rest
          | none => none) = some x
        rw [set_get_self cs i c (replaceAt c rest x) hget]
        apply ih
        intro hnone
        apply h
        show (match cs.get? i with
          | some c => nodeAt c rest
          | none => none) = none
        rw [hget]
        exact hnone

theorem startsWithL_cons_same (a : Nat) (l1 l2 : List Nat) :
    startsWithL (a :: l1) (a :: l2) = startsWithL l1 l2 := by
  simp [startsWithL]

theorem pathsIndep_symm {p q : List Nat} (h : pathsIndep p q) : pathsIndep q p := ⟨h.2, h.1⟩

theorem pathsIndep_tail {a : Nat} {p q : List Nat} (h : pathsIndep (a :: p) (a :: q)) :
    pathsIndep p q := by
  constructor
  · intro hs
    exact h.1 (by rw [startsWithL_cons_same]; exact hs)
  · intro hs
    exact h.2 (by rw [startsWithL_cons_same]; exact hs)

theorem nodeAt_replaceAt_indep :
    ∀ (q p : List Nat) (t x : Node), pathsIndep p q →
      nodeAt (replaceAt t q x) p = nodeAt t p := by
  intro q
  induction q with
  | nil =>
    intro p t x h
    exact absurd rfl h.2
  | cons i q' ih =>
    intro p t x h
    cases p with
    | nil => exact absurd rfl h.1
    | cons j p' =>
      cases t with
      | text s => rfl
      | elem tag cls cs =>
        cases hget : cs.get? i with
        | none =>
          show nodeAt (match cs.get? i with
            | some c => Node.elem tag cls (cs.set i (replaceAt c q' x))
            | none => Node.elem tag cls cs) (j :: p') = nodeAt (Node.elem tag cls cs) (j :: p')
          rw [hget]
        | some c =>
          show nodeAt (match cs.get? i with
            | some c => Node.elem tag cls (cs.set i (replaceAt c q' x))
            | none => Node.elem tag cls cs) (j :: p') = nodeAt (Node.elem tag cls cs) (j :: p')
          rw [hget]
          show (match (cs.set i (replaceAt c q' x)).get? j with
            | some c => nodeAt c p'
            | none => none)
            = (match cs.get? j with
              | some c => nodeAt c p'
              | none => none)
          by_cases hij : j = i
          · subst hij
            rw [set_get_self cs j c (replaceAt c q' x) hget, hget]
            exact ih p' c x (pathsIndep_tail h)
          · rw [set_get_other cs i j (replaceAt c q' x) hij]

theorem leavesL_sound_aux (m : Nat)
    (hN : ∀ (c : Node), sizeOf c ≤ m → ∀ par gp p lf, lf ∈ leavesN par gp c p →
      ∃ rel, lf.path = p ++ rel ∧ nodeAt c rel = some (.text lf.content)) :
    ∀ (cs : List Node), (∀ c ∈ cs, sizeOf c ≤ m) →
      ∀ par gp p i lf, lf ∈ leavesL par gp cs p i →
      ∃ j c rel, cs.get? j = some c ∧ lf.path = p ++ (i + j) :: rel
        ∧ nodeAt c rel = some (.text lf.content) := by
  intro cs
  induction cs with
  | nil =>
    intro _ par gp p i lf h
    rw [show leavesL par gp [] p i = [] from by simp [leavesL]] at h
    cases h
  | cons c0 cs ih =>
    intro hsz par gp p i lf h
    rw [show leavesL par gp (c0 :: cs) p i
        = leavesN par gp c0 (p ++ [i]) ++ leavesL par gp cs p (i + 1) from by
      simp [leavesL]] at h
    rcases List.mem_append.mp h with h1 | h2
    · obtain ⟨rel, hpath, hnode⟩ := hN c0 (hsz c0 (List.mem_cons_self _ _)) par gp (p ++ [i]) lf h1
      refine ⟨0, c0, rel, rfl, ?_, hnode⟩
      rw [hpath]
      simp
    · obtain ⟨j, c, rel, hget, hpath, hnode⟩ :=
        ih (fun c hc => hsz c (List.mem_cons_of_mem _ hc)) par gp p (i + 1) lf h2
      refine ⟨j + 1, c, rel, by simpa using hget, ?_, hnode⟩
      rw [hpath, show i + 1 + j = i + (j + 1) by omega]

theorem leavesN_sound :
    ∀ (n : Nat) (t : Node), sizeOf t ≤ n → ∀ par gp p lf, lf ∈ leavesN par gp t p →
      ∃ rel, lf.path = p ++ rel ∧ nodeAt t rel = some (.text lf.content) := by
  intro n
  induction n with
  | zero =>
    intro t ht
    exfalso
    cases t <;> simp_arith at ht
  | succ n ih =>
    intro t ht par gp p lf hmem
    cases t with
    | text s =>
      rw [show leavesN par gp (.text s) p = [⟨p, s, par, gp⟩] from by simp [leavesN]] at hmem
      rw [List.mem_singleton] at hmem
      subst hmem
      exact ⟨[], by simp, rfl⟩
    | elem tag cls cs =>
      rw [show leavesN par gp (.elem tag cls cs) p = leavesL (some (tag, p)) par cs p 0 from by
        simp [leavesN]] at hmem
      have hc : ∀ c ∈ cs, sizeOf c ≤ n := by
        intro c hcmem
        have h1 : sizeOf c < sizeOf cs := List.sizeOf_lt_of_mem hcmem
        have h2 : sizeOf cs < sizeOf (Node.elem tag cls cs) := by
          simp_arith
        omega
      obtain ⟨j, c, rel, hget, hpath, hnode⟩ :=
        leavesL_sound_aux n (fun c hsc => ih c hsc) cs hc (some (tag, p)) par p 0 lf hmem
      refine ⟨j :: rel, by simpa using hpath, ?_⟩
      show (match cs.get? j with
        | some c => nodeAt c rel
        | none => none) = some (.text lf.content)
      rw [hget]
      exact hnode

/-- Every collected leaf records the position of an actual text node with
its raw content. -/
theorem leaves_path_sound (root : Node) (lf : Leaf) (h : lf ∈ leaves root) :
    nodeAt root lf.path = some (.text lf.content) := by
  obtain ⟨rel, hpath, hnode⟩ :=
    leavesN_sound (sizeOf root) root (le_refl _) none none [] lf h
  rw [hpath]
  simpa using hnode

theorem primaryCands_leaf_mem (root : Node) (target : Str) (cB cA : Option Str) :
    ∀ x ∈ primaryCands root target cB cA,
      x.leaf ∈ leaves root ∧ x.text = textContentOf x.leaf := by
  intro x hx
  rw [primaryCands, List.mem_filterMap] at hx
  obtain ⟨lf, hlf, hsome⟩ := hx
  by_cases hcond : (parentOKForScan lf && !(textContentOf lf).isEmpty
      && containsSub target (textContentOf lf)) = true
  · rw [if_pos hcond] at hsome
    have := Option.some.inj hsome
    subst this
    exact ⟨hlf, rfl⟩
  · rw [if_neg hcond] at hsome
    cases hsome

theorem groupAdjacent_mem (ps : List Leaf) :
    ∀ g ∈ groupAdjacent ps, ∀ lf ∈ g, lf ∈ ps := by
  have key : ∀ (l : List Leaf) (acc : List (List Leaf) × List Leaf),
      (∀ g ∈ acc.1, ∀ lf ∈ g, lf ∈ ps) → (∀ lf ∈ acc.2, lf ∈ ps) →
      (∀ lf ∈ l, lf ∈ ps) →
      (∀ g ∈ (l.foldl groupStep acc).1, ∀ lf ∈ g, lf ∈ ps)
        ∧ (∀ lf ∈ (l.foldl groupStep acc).2, lf ∈ ps) := by
    intro l
    induction l with
    | nil => intro acc h1 h2 _; exact ⟨h1, h2⟩
    | cons x xs ih =>
      intro acc h1 h2 hl
      rw [List.foldl_cons]
      refine ih (groupStep acc x) ?_ ?_ (fun lf hlf => hl lf (List.mem_cons_of_mem _ hlf))
      · unfold groupStep
        cases hlast : acc.2.getLast? with
        | none => exact h1
        | some prev =>
          show ∀ g ∈ (if adjOK prev x = true then (acc.1, acc.2 ++ [x])
              else (acc.1 ++ [acc.2], [x])).1, ∀ lf ∈ g, lf ∈ ps
          split_ifs with hadj
          · exact h1
          · intro g hg
            rcases List.mem_append.mp hg with hg1 | hg2
            · exact h1 g hg1
            · rw [List.mem_singleton] at hg2
              subst hg2
              exact h2
      · unfold groupStep
        cases hlast : acc.2.getLast? with
        | none =>
          intro lf hlf
          rw [show ((acc.1, [x]) : List (List Leaf) × List Leaf).2 = [x] from rfl,
            List.mem_singleton] at hlf
          subst hlf
          exact hl _ (List.mem_cons_self _ _)
        | some prev =>
          show ∀ lf ∈ (if adjOK prev x = true then (acc.1, acc.2 ++ [x])
              else (acc.1 ++ [acc.2], [x])).2, lf ∈ ps
          split_ifs with hadj
          · intro lf hlf
            rcases List.mem_append.mp hlf with hin | hin
            · exact h2 lf hin
            · rw [List.mem_singleton] at hin
              subst hin
              exact hl _ (List.mem_cons_self _ _)
          · intro lf hlf
            rw [List.mem_singleton] at hlf
            subst hlf
            exact hl _ (List.mem_cons_self _ _)
  intro g hg lf hlf
  obtain ⟨k1, k2⟩ := key ps ([], []) (by simp) (by simp) (fun lf h => h)
  simp only [groupAdjacent] at hg
  split_ifs at hg with hemp
  · exact k1 g hg lf hlf
  · rcases List.mem_append.mp hg with h | h
    · exact k1 g h lf hlf
    · rw [List.mem_singleton] at h
      subst h
      exact k2 lf hlf

theorem applyGroupAux_preserve (css tip : Str) (n : Nat) :
    ∀ (g : List Leaf) (t0 : Node) (i0 : Nat) (p : List Nat),
      (∀ lf ∈ g, pathsIndep p lf.path) →
      nodeAt (applyGroupAux css tip n t0 i0 g) p = nodeAt t0 p := by
  intro g
  induction g with
  | nil => intro t0 i0 p _; rfl
  | cons lf rest ih =>
    intro t0 i0 p hind
    show nodeAt (applyGroupAux css tip n
        (replaceAt t0 lf.path (groupMarker css tip (i0 + 1) n lf.content)) (i0 + 1) rest) p
      = nodeAt t0 p
    rw [ih _ _ _ (fun l h => hind l (List.mem_cons_of_mem _ h)),
      nodeAt_replaceAt_indep lf.path p t0 _ (hind lf (List.mem_cons_self _ _))]

theorem applyGroupAux_get (css tip : Str) (n : Nat) :
    ∀ (g : List Leaf) (t0 : Node) (i0 : Nat),
      g.Pairwise (fun a b => pathsIndep a.path b.path) →
      (∀ lf ∈ g, nodeAt t0 lf.path ≠ none) →
      ∀ i (hi : i < g.length),
        nodeAt (applyGroupAux css tip n t0 i0 g) (g.get ⟨i, hi⟩).path
          = some (groupMarker css tip (i0 + i + 1) n (g.get ⟨i, hi⟩).content) := by
  intro g
  induction g with
  | nil => intro t0 i0 _ _ i hi; exact absurd hi (by simp)
  | cons lf rest ih =>
    intro t0 i0 hpw hval i hi
    cases i with
    | zero =>
      show nodeAt (applyGroupAux css tip n
          (replaceAt t0 lf.path (groupMarker css tip (i0 + 1) n lf.content)) (i0 + 1) rest)
          lf.path = some (groupMarker css tip (i0 + 0 + 1) n lf.content)
      rw [applyGroupAux_preserve css tip n rest _ _ _
          (fun l h => (List.pairwise_cons.mp hpw).1 l h),
        nodeAt_replaceAt_self lf.path t0 _ (hval lf (List.mem_cons_self _ _))]
    | succ i' =>
      have hi' : i' < rest.length := by simpa using hi
      have hnew : ∀ l ∈ rest, nodeAt
          (replaceAt t0 lf.path (groupMarker css tip (i0 + 1) n lf.content)) l.path ≠ none := by
        intro l hl
        rw [nodeAt_replaceAt_indep lf.path l.path t0 _
          (pathsIndep_symm ((List.pairwise_cons.mp hpw).1 l hl))]
        exact hval l (List.mem_cons_of_mem _ hl)
      have hrec := ih (replaceAt t0 lf.path (groupMarker css tip (i0 + 1) n lf.content))
        (i0 + 1) (List.pairwise_cons.mp hpw).2 hnew i' hi'
      show nodeAt (applyGroupAux css tip n
          (replaceAt t0 lf.path (groupMarker css tip (i0 + 1) n lf.content)) (i0 + 1) rest)
          (rest.get ⟨i', hi'⟩).path
        = some (groupMarker css tip (i0 + (i' + 1) + 1) n (rest.get ⟨i', hi'⟩).content)
      rw [hrec, show i0 + 1 + i' + 1 = i0 + (i' + 1) + 1 by omega]

set_option maxRecDepth 4000

/-- C8 counterexample: the marker produced for an accepted single-leaf match
wraps the leaf's NORMALIZED text, not its original text.  For the leaf
`" cat  dog "` and the target `"cat dog"` the marker wraps `"cat dog"`,
which differs from the original content. -/
theorem C8_cex_marker_normalizes :
    (findAndHighlightTextByContent docMessy (str "cat dog") (str "hl") (str "tip") true
        none none).success = true
    ∧ nodeAt (findAndHighlightTextByContent docMessy (str "cat dog") (str "hl") (str "tip") true
          none none).tree [0, 0]
        = some (primaryMarker (str "hl") (str "tip") (str "cat dog"))
    ∧ str "cat dog" ≠ str " cat  dog " := by
  refine ⟨?_, ?_, by decide⟩
  · with_unfolding_all decide
  · with_unfolding_all rfl

/-- C8 amended: an accepted single-leaf match is replaced by a marker
wrapping the leaf's whitespace-NORMALIZED text (not the raw original text);
each member `i` (0-based) of an accepted group of `n` leaves is replaced by a
marker wrapping its stripped raw text whose tooltip records the sequence
position `(i+1)/n`.  (The pairwise path-independence hypothesis holds for any
actual leaf list, whose entries occupy distinct incomparable tree
positions.) -/
theorem C8_amended_marker (root : Node) (t css tip : Str) (cB cA : Option Str)
    (hne : pyStrip t ≠ []) :
    (∀ best, pickBest (primaryCands root (pyStrip t) cB cA) = some best →
        ABSOLUTE_THRESHOLD ≤ best.finalScore →
        nodeAt (findAndHighlightTextByContent root t css tip true cB cA).tree best.leaf.path
          = some (primaryMarker css tip (pyNormText best.leaf.content)))
    ∧ (primaryCands root (pyStrip t) cB cA = [] →
        ∀ g s, pickBestGroup ((groupAdjacent ((leaves root).filter
              (overlapCond (pyStrip t)))).map
            fun g => (g, groupFinalScore root (pyStrip t) cB cA g)) = (some g, s) →
          ABSOLUTE_THRESHOLD ≤ s →
          g.Pairwise (fun a b => pathsIndep a.path b.path) →
          ∀ i (hi : i < g.length),
            nodeAt (findAndHighlightTextByContent root t css tip true cB cA).tree
                (g.get ⟨i, hi⟩).path
              = some (groupMarker css tip (i + 1) g.length (g.get ⟨i, hi⟩).content)) := by
  constructor
  · intro best hpick hth
    have heq := fah_primary_eq root t css tip true cB cA hne best hpick
    rw [heq, if_pos hth, if_pos rfl]
    show nodeAt (replaceAt root best.leaf.path (primaryMarker css tip best.text))
        best.leaf.path = _
    have hmem := (pickBest_spec _ _ hpick).1
    obtain ⟨hleaf, htext⟩ := primaryCands_leaf_mem root (pyStrip t) cB cA best hmem
    rw [nodeAt_replaceAt_self best.leaf.path root _
      (by simp [leaves_path_sound root best.leaf hleaf]), htext]
    rfl
  · intro hnil g s hsome hth hpw
    have heq := fah_fallback_eq root t css tip true cB cA hne hnil
    have heq2 := fallbackLocate_eq_of_some root (pyStrip t) css tip true cB cA g s hsome
    intro i hi
    rw [heq, heq2, if_pos hth, if_pos rfl]
    show nodeAt (applyGroupHighlight root g css tip) (g.get ⟨i, hi⟩).path = _
    have hmem : ∀ lf ∈ g, lf ∈ leaves root := by
      obtain ⟨hor, _⟩ := pickBestGroup_spec
        ((groupAdjacent ((leaves root).filter (overlapCond (pyStrip t)))).map
          fun g => (g, groupFinalScore root (pyStrip t) cB cA g))
      rcases hor with hnone | ⟨x, hx, hsome2⟩
      · rw [hnone] at hsome
        cases hsome
      · rw [hsome2] at hsome
        have hx1 : some x.1 = some g := congrArg Prod.fst hsome
        have hg : x.1 = g := Option.some.inj hx1
        obtain ⟨g', hg', hxeq⟩ := List.mem_map.mp hx
        have hgg : g' = g := by
          rw [← hg, ← hxeq]
        subst hgg
        intro lf hlf
        exact List.mem_of_mem_filter
          (groupAdjacent_mem ((leaves root).filter (overlapCond (pyStrip t))) g' hg' lf hlf)
    unfold applyGroupHighlight
    have hfin := applyGroupAux_get css tip g.length g root 0 hpw
      (fun lf hlf => by simp [leaves_path_sound root lf (hmem lf hlf)]) i hi
    rw [Nat.zero_add] at hfin
    exact hfin

/-- C8 amended witness: the accepted `"cat"` match leaves a marker at the
leaf's position wrapping the normalized text. -/
theorem C8_amended_marker_witness :
    nodeAt (findAndHighlightTextByContent docCat (str "cat") (str "hl") (str "tip") true
        none none).tree [0, 0]
      = some (primaryMarker (str "hl") (str "tip") (pyNormText (str "cat"))) :=
  (C8_amended_marker docCat (str "cat") (str "hl") (str "tip") none none (by decide)).1
    catCand (by with_unfolding_all decide) (by with_unfolding_all decide)

end HtmlCompare
